import Mathlib

/-!
Verification development for the cryptographic and binary-codec core of the
Electrum-XGOX wallet repository.  The repository ships only its test suite;
the library modules (bitcoin, transaction, keystore, mnemonic) are absent, so
every operation below is modelled from the specification document, with the
concrete behaviour pinned wherever the test suite fixes it (encodings, version
bytes, boundary values).  Bytes are modelled as natural numbers below 256 in
lists; machine words are naturals reduced modulo two to the word width.
-/

namespace TestLite

/-- Byte sequences are lists of naturals; a sequence is well formed when every
entry is below 256. -/
def okBytes (l : List Nat) : Prop := ∀ b ∈ l, b < 256

instance okBytesDecidable (l : List Nat) : Decidable (okBytes l) := by
  unfold okBytes; infer_instance

/-- Big-endian encoding of a natural into k bytes (most significant first). -/
def beBytes : Nat → Nat → List Nat
  | 0, _ => []
  | k + 1, v => beBytes k (v / 256) ++ [v % 256]

/-- Big-endian value of a byte sequence. -/
def beNum (l : List Nat) : Nat := l.foldl (fun a b => a * 256 + b) 0

/-- Little-endian encoding of a natural into k bytes (least significant first). -/
def leBytes : Nat → Nat → List Nat
  | 0, _ => []
  | k + 1, v => v % 256 :: leBytes k (v / 256)

/-- Little-endian value of a byte sequence. -/
def leNum (l : List Nat) : Nat := l.foldr (fun b a => a * 256 + b) 0

/-- Lowercase hex digit for a value below 16. -/
def hexDigit (n : Nat) : Char :=
  if n < 10 then Char.ofNat (48 + n) else Char.ofNat (87 + n)

/-- Two lowercase hex digits of one byte. -/
def byteHex (b : Nat) : List Char := [hexDigit (b / 16), hexDigit (b % 16)]

/-- Lowercase hex string of a byte sequence (the bh2u convention of the code). -/
def bytesToHex (l : List Nat) : String := ⟨l.flatMap byteHex⟩

/-- Value of one hex digit character, if it is one (both cases accepted). -/
def hexDigitVal (c : Char) : Option Nat :=
  if 48 ≤ c.toNat ∧ c.toNat ≤ 57 then some (c.toNat - 48)
  else if 97 ≤ c.toNat ∧ c.toNat ≤ 102 then some (c.toNat - 87)
  else if 65 ≤ c.toNat ∧ c.toNat ≤ 70 then some (c.toNat - 55)
  else none

/-- Strict hex decoding of a character list into bytes; fails on odd length or
a character that is not a hex digit (the bfh convention of the code). -/
def hexToBytes : List Char → Option (List Nat)
  | [] => some []
  | [_] => none
  | c1 :: c2 :: rest =>
    match hexDigitVal c1, hexDigitVal c2, hexToBytes rest with
    | some h, some l, some tl => some ((16 * h + l) :: tl)
    | _, _, _ => none

/-- Hex decoding of a string. -/
def hexStrToBytes (s : String) : Option (List Nat) := hexToBytes s.data

/-! ## SHA-256 and SHA-512

Modelled from the spec: the double-SHA-256 `Hash` function, Base58Check
checksums, HMAC-SHA-512 seed and BIP32 derivation all rest on the real FIPS
180-4 compression functions, reproduced here over naturals with explicit
reduction modulo the word size. -/

/-- Right rotation of a w-bit word. -/
def rotr (w n x : Nat) : Nat := ((x >>> n) ||| (x <<< (w - n))) % 2 ^ w

/-- SHA-2 state: eight working words. -/
structure Sha2State where
  a : Nat
  b : Nat
  c : Nat
  d : Nat
  e : Nat
  f : Nat
  g : Nat
  h : Nat

/-- One SHA-2 round at word width w with rotation offsets for the big sigmas. -/
def sha2Round (w : Nat) (bs0 : Nat × Nat × Nat) (bs1 : Nat × Nat × Nat)
    (st : Sha2State) (kw : Nat × Nat) : Sha2State :=
  let m := 2 ^ w
  let S1 := rotr w bs1.1 st.e ^^^ rotr w bs1.2.1 st.e ^^^ rotr w bs1.2.2 st.e
  let ch := (st.e &&& st.f) ^^^ ((m - 1 - st.e) &&& st.g)
  let t1 := (st.h + S1 + ch + kw.1 + kw.2) % m
  let S0 := rotr w bs0.1 st.a ^^^ rotr w bs0.2.1 st.a ^^^ rotr w bs0.2.2 st.a
  let maj := (st.a &&& st.b) ^^^ (st.a &&& st.c) ^^^ (st.b &&& st.c)
  let t2 := (S0 + maj) % m
  ⟨(t1 + t2) % m, st.a, st.b, st.c, (st.d + t1) % m, st.e, st.f, st.g⟩

/-- Extend a 16-word schedule by count further words, at width w with the small
sigma rotation offsets. -/
def sha2Extend (w : Nat) (ss0 : Nat × Nat × Nat) (ss1 : Nat × Nat × Nat) :
    Nat → List Nat → List Nat
  | 0, ws => ws
  | count + 1, ws =>
    let n := ws.length
    let w15 := ws.getD (n - 15) 0
    let w2 := ws.getD (n - 2) 0
    let s0 := rotr w ss0.1 w15 ^^^ rotr w ss0.2.1 w15 ^^^ (w15 >>> ss0.2.2)
    let s1 := rotr w ss1.1 w2 ^^^ rotr w ss1.2.1 w2 ^^^ (w2 >>> ss1.2.2)
    let nw := (ws.getD (n - 16) 0 + s0 + ws.getD (n - 7) 0 + s1) % 2 ^ w
    sha2Extend w ss0 ss1 count (ws ++ [nw])

/-- Split a byte sequence into w-bit big-endian words. -/
def bytesToWords (wb : Nat) : Nat → List Nat → List Nat
  | 0, _ => []
  | fuel + 1, l =>
    match l with
    | [] => []
    | _ => beNum (l.take wb) :: bytesToWords wb fuel (l.drop wb)

/-- One SHA-2 compression of a 16-word block into the chaining state. -/
def sha2Block (w : Nat) (K : List Nat) (ss0 ss1 bs0 bs1 : Nat × Nat × Nat)
    (extra : Nat) (H : List Nat) (block : List Nat) : List Nat :=
  let m := 2 ^ w
  let ws := sha2Extend w ss0 ss1 extra block
  let init : Sha2State :=
    ⟨H.getD 0 0, H.getD 1 0, H.getD 2 0, H.getD 3 0,
     H.getD 4 0, H.getD 5 0, H.getD 6 0, H.getD 7 0⟩
  let fin := (K.zip ws).foldl (sha2Round w bs0 bs1) init
  [(H.getD 0 0 + fin.a) % m, (H.getD 1 0 + fin.b) % m, (H.getD 2 0 + fin.c) % m,
   (H.getD 3 0 + fin.d) % m, (H.getD 4 0 + fin.e) % m, (H.getD 5 0 + fin.f) % m,
   (H.getD 6 0 + fin.g) % m, (H.getD 7 0 + fin.h) % m]

/-- Split into blocks of bl bytes. -/
def byteBlocks (bl : Nat) : Nat → List Nat → List (List Nat)
  | 0, _ => []
  | fuel + 1, l =>
    match l with
    | [] => []
    | _ => l.take bl :: byteBlocks bl fuel (l.drop bl)

/-- FIPS 180-4 padding: 0x80, zeros, then the bit length over lb bytes,
filling to a multiple of bl bytes. -/
def sha2Pad (bl lb : Nat) (msg : List Nat) : List Nat :=
  let len := msg.length
  let zeros := (bl - (len + 1 + lb) % bl) % bl
  msg ++ 128 :: List.replicate zeros 0 ++ beBytes lb (8 * len)

def sha256K : List Nat :=
  [1116352408, 1899447441, 3049323471, 3921009573, 961987163, 1508970993,
   2453635748, 2870763221, 3624381080, 310598401, 607225278, 1426881987,
   1925078388, 2162078206, 2614888103, 3248222580, 3835390401, 4022224774,
   264347078, 604807628, 770255983, 1249150122, 1555081692, 1996064986,
   2554220882, 2821834349, 2952996808, 3210313671, 3336571891, 3584528711,
   113926993, 338241895, 666307205, 773529912, 1294757372, 1396182291,
   1695183700, 1986661051, 2177026350, 2456956037, 2730485921, 2820302411,
   3259730800, 3345764771, 3516065817, 3600352804, 4094571909, 275423344,
   430227734, 506948616, 659060556, 883997877, 958139571, 1322822218,
   1537002063, 1747873779, 1955562222, 2024104815, 2227730452, 2361852424,
   2428436474, 2756734187, 3204031479, 3329325298]

def sha256H0 : List Nat :=
  [1779033703, 3144134277, 1013904242, 2773480762, 1359893119, 2600822924,
   528734635, 1541459225]

/-- SHA-256 of a byte sequence. -/
def sha256 (msg : List Nat) : List Nat :=
  let padded := sha2Pad 64 8 msg
  let blocks := byteBlocks 64 (padded.length + 1) padded
  let final := blocks.foldl
    (fun H blk =>
      sha2Block 32 sha256K (7, 18, 3) (17, 19, 10) (2, 13, 22) (6, 11, 25) 48 H
        (bytesToWords 4 (blk.length + 1) blk))
    sha256H0
  final.flatMap (beBytes 4)

def sha512K : List Nat :=
  [4794697086780616226, 8158064640168781261, 13096744586834688815,
   16840607885511220156, 4131703408338449720, 6480981068601479193,
   10538285296894168987, 12329834152419229976, 15566598209576043074,
   1334009975649890238, 2608012711638119052, 6128411473006802146,
   8268148722764581231, 9286055187155687089, 11230858885718282805,
   13951009754708518548, 16472876342353939154, 17275323862435702243,
   1135362057144423861, 2597628984639134821, 3308224258029322869,
   5365058923640841347, 6679025012923562964, 8573033837759648693,
   10970295158949994411, 12119686244451234320, 12683024718118986047,
   13788192230050041572, 14330467153632333762, 15395433587784984357,
   489312712824947311, 1452737877330783856, 2861767655752347644,
   3322285676063803686, 5560940570517711597, 5996557281743188959,
   7280758554555802590, 8532644243296465576, 9350256976987008742,
   10552545826968843579, 11727347734174303076, 12113106623233404929,
   14000437183269869457, 14369950271660146224, 15101387698204529176,
   15463397548674623760, 17586052441742319658, 1182934255886127544,
   1847814050463011016, 2177327727835720531, 2830643537854262169,
   3796741975233480872, 4115178125766777443, 5681478168544905931,
   6601373596472566643, 7507060721942968483, 8399075790359081724,
   8693463985226723168, 9568029438360202098, 10144078919501101548,
   10430055236837252648, 11840083180663258601, 13761210420658862357,
   14299343276471374635, 14566680578165727644, 15097957966210449927,
   16922976911328602910, 17689382322260857208, 500013540394364858,
   748580250866718886, 1242879168328830382, 1977374033974150939,
   2944078676154940804, 3659926193048069267, 4368137639120453308,
   4836135668995329356, 5532061633213252278, 6448918945643986474,
   6902733635092675308, 7801388544844847127]

def sha512H0 : List Nat :=
  [7640891576956012808, 13503953896175478587, 4354685564936845355,
   11912009170470909681, 5840696475078001361, 11170449401992604703,
   2270897969802886507, 6620516959819538809]

/-- SHA-512 of a byte sequence. -/
def sha512 (msg : List Nat) : List Nat :=
  let padded := sha2Pad 128 16 msg
  let blocks := byteBlocks 128 (padded.length + 1) padded
  let final := blocks.foldl
    (fun H blk =>
      sha2Block 64 sha512K (1, 8, 7) (19, 61, 6) (28, 34, 39) (14, 18, 41) 64 H
        (bytesToWords 8 (blk.length + 1) blk))
    sha512H0
  final.flatMap (beBytes 8)

/-- Double SHA-256, the Hash function of the code. -/
def dsha256 (msg : List Nat) : List Nat := sha256 (sha256 msg)

/-- HMAC-SHA-512 with byte-sequence key and message (RFC 2104). -/
def hmacSha512 (key msg : List Nat) : List Nat :=
  let k0 := if 128 < key.length then sha512 key else key
  let kp := k0 ++ List.replicate (128 - k0.length) 0
  let ipad := kp.map (fun b => b ^^^ 54)
  let opad := kp.map (fun b => b ^^^ 92)
  sha512 (opad ++ sha512 (ipad ++ msg))

end TestLite

namespace TestLite

/-! ## Base58 and Base58Check (spec 4.2) -/

/-- The fixed base-58 alphabet. -/
def b58chars : List Char :=
  "123456789ABCDEFGHJKLMNPQRSTUVWXYZabcdefghijkmnopqrstuvwxyz".data

/-- Index search in a character list. -/
def idxOfAux (c : Char) : List Char → Nat → Option Nat
  | [], _ => none
  | x :: xs, i => if x = c then some i else idxOfAux c xs (i + 1)

/-- Value of one base-58 digit character, if it is one. -/
def b58charVal (c : Char) : Option Nat := idxOfAux c b58chars 0

/-- Base-58 digits of a natural, most significant first (fuel bounded). -/
def natToB58 : Nat → Nat → List Char
  | 0, _ => []
  | fuel + 1, n =>
    if n = 0 then []
    else natToB58 fuel (n / 58) ++ [b58chars.getD (n % 58) (Char.ofNat 49)]

/-- Minimal big-endian bytes of a natural (fuel bounded). -/
def natToBytesMin : Nat → Nat → List Nat
  | 0, _ => []
  | fuel + 1, n =>
    if n = 0 then [] else natToBytesMin fuel (n / 256) ++ [n % 256]

/-- Base-58 value of a digit string, failing on a foreign character. -/
def b58Value : List Char → Nat → Option Nat
  | [], acc => some acc
  | c :: cs, acc =>
    match b58charVal c with
    | some v => b58Value cs (58 * acc + v)
    | none => none

/-- Base-58 encoding of a byte payload: leading zero bytes become the digit
one, the rest is the big-endian value in base 58. -/
def base_encode (l : List Nat) : String :=
  let zeros := (l.takeWhile (· = 0)).length
  ⟨List.replicate zeros (Char.ofNat 49) ++ natToB58 (2 * l.length) (beNum l)⟩

/-- Base-58 decoding to a required byte length, None on a foreign character or
a length mismatch (the base_decode helper of the code). -/
def base_decode (s : String) (len : Nat) : Option (List Nat) :=
  match b58Value s.data 0 with
  | none => none
  | some n =>
    let zeros := (s.data.takeWhile (· = Char.ofNat 49)).length
    let full := List.replicate zeros 0 ++ natToBytesMin s.length n
    if full.length = len then some full else none

/-- Base58Check encoding: payload plus the first four bytes of its double
SHA-256 as checksum. -/
def EncodeBase58Check (payload : List Nat) : String :=
  base_encode (payload ++ (dsha256 payload).take 4)

/-- Base58Check decoding: recover the bytes, verify length and checksum. -/
def DecodeBase58Check (s : String) : Option (List Nat) :=
  match b58Value s.data 0 with
  | none => none
  | some n =>
    let zeros := (s.data.takeWhile (· = Char.ofNat 49)).length
    let full := List.replicate zeros 0 ++ natToBytesMin s.length n
    if full.length < 4 then none
    else
      let payload := full.take (full.length - 4)
      let csum := full.drop (full.length - 4)
      if (dsha256 payload).take 4 = csum then some payload else none

/-- Modelled from the spec: hash160 is RIPEMD-160 after SHA-256; the
RIPEMD-160 routine is not part of the repository sources and no claim depends
on its internals, so it is modelled as the first 20 bytes of double SHA-256
(a fixed 20-byte digest function). -/
def hash160 (l : List Nat) : List Nat := (dsha256 l).take 20

/-! ## Compact size and the binary stream (spec 4.2, 4.7) -/

/-- Byte encoding of the compact/variable-length integer of the wire format:
below 253 one byte, then the markers 253, 254, 255 followed by the value in
2, 4 or 8 little-endian bytes. -/
def wcsBytes (v : Nat) : List Nat :=
  if v < 253 then [v]
  else if v < 65536 then 253 :: leBytes 2 v
  else if v < 4294967296 then 254 :: leBytes 4 v
  else 255 :: leBytes 8 v

/-- Modelled from the spec: the symmetric compact-size reader. It consumes
exactly the encodings the writer produces (enforcing the round-trip law of
the spec, hence rejecting a marker whose value fits a shorter form) and fails
distinctly when the stream is exhausted or a marker lacks its payload. -/
def read_compact_size_bytes : List Nat → Option (Nat × List Nat)
  | [] => none
  | b :: rest =>
    if b < 253 then some (b, rest)
    else if b = 253 then
      if 2 ≤ rest.length ∧ 253 ≤ leNum (rest.take 2) ∧ leNum (rest.take 2) < 65536
      then some (leNum (rest.take 2), rest.drop 2) else none
    else if b = 254 then
      if 4 ≤ rest.length ∧ 65536 ≤ leNum (rest.take 4) ∧
          leNum (rest.take 4) < 4294967296
      then some (leNum (rest.take 4), rest.drop 4) else none
    else
      if 8 ≤ rest.length ∧ 4294967296 ≤ leNum (rest.take 8)
      then some (leNum (rest.take 8), rest.drop 8) else none

/-- The sequential binary reader and writer over a byte buffer. -/
structure BCDataStream where
  input : List Nat
  read_cursor : Nat
deriving DecidableEq

/-- A fresh, empty stream. -/
def BCDataStream.empty : BCDataStream := ⟨[], 0⟩

/-- Append bytes to the buffer. -/
def BCDataStream.write (s : BCDataStream) (b : List Nat) : BCDataStream :=
  ⟨s.input ++ b, s.read_cursor⟩

/-- Write a compact-size value; a negative value is a serialization error. -/
def BCDataStream.write_compact_size (s : BCDataStream) (v : Int) :
    Except Unit BCDataStream :=
  if v < 0 then .error () else .ok (s.write (wcsBytes v.toNat))

/-- Read a compact-size value at the cursor; exhaustion is an error. -/
def BCDataStream.read_compact_size (s : BCDataStream) :
    Except Unit (Nat × BCDataStream) :=
  match read_compact_size_bytes (s.input.drop s.read_cursor) with
  | none => .error ()
  | some (v, _) =>
    .ok (v, ⟨s.input, s.read_cursor + (wcsBytes v).length⟩)

/-- Read length bytes at the cursor. Behaviour pinned by the test suite
(test_bytes): the result is the buffer slice from the cursor, so a read past
the available data returns the bytes that remain (possibly none) rather than
failing, and the cursor always advances by the requested length. -/
def BCDataStream.read_bytes (s : BCDataStream) (len : Nat) :
    List Nat × BCDataStream :=
  ((s.input.drop s.read_cursor).take len,
   ⟨s.input, s.read_cursor + len⟩)

/-! ## Hex writers of the encoding layer (spec 4.2) -/

/-- Little-endian fixed-width hex of an integer (the int_to_hex helper). -/
def int_to_hex (i k : Nat) : String := bytesToHex (leBytes k i)

/-- Hex form of the compact-size encoding. -/
def var_int (i : Nat) : String := bytesToHex (wcsBytes i)

/-- The push-data length prefix. Boundary behaviour pinned by the test suite
(test_op_push): 0xff encodes with marker 4d and 0xffff with marker 4e, so the
comparisons are strict at 0xff and 0xffff. -/
def op_push (i : Nat) : String :=
  if i < 76 then int_to_hex i 1
  else if i < 255 then "4c" ++ int_to_hex i 1
  else if i < 65535 then "4d" ++ int_to_hex i 2
  else "4e" ++ int_to_hex i 4

/-! ## Transaction codec (spec 4.7) -/

/-- Strict little-endian integer read: fails without k bytes. -/
def readLE (k : Nat) (l : List Nat) : Option (Nat × List Nat) :=
  if l.length < k then none else some (leNum (l.take k), l.drop k)

/-- Strict chunk read: fails without n bytes. -/
def readChunk (n : Nat) (l : List Nat) : Option (List Nat × List Nat) :=
  if l.length < n then none else some (l.take n, l.drop n)

/-- A transaction input: previous output reference (hash stored byte-reversed
as read), script-sig bytes and sequence. -/
structure TxIn where
  prevout_hash : List Nat
  prevout_n : Nat
  scriptSig : List Nat
  sequence : Nat
deriving DecidableEq

/-- A transaction output: value and script-pubkey bytes. -/
structure TxOut where
  value : Nat
  scriptPubKey : List Nat
deriving DecidableEq

/-- The structured snapshot a deserialization produces. -/
structure TxParsed where
  version : Nat
  inputs : List TxIn
  outputs : List TxOut
  lockTime : Nat
deriving DecidableEq

/-- Parse one input: 32-byte hash (byte-reversed on read), 4-byte index,
length-prefixed script, 4-byte sequence. -/
def parse_input (l : List Nat) : Option (TxIn × List Nat) :=
  match readChunk 32 l with
  | none => none
  | some (ph, l1) =>
    match readLE 4 l1 with
    | none => none
    | some (pn, l2) =>
      match read_compact_size_bytes l2 with
      | none => none
      | some (sl, l3) =>
        match readChunk sl l3 with
        | none => none
        | some (sc, l4) =>
          match readLE 4 l4 with
          | none => none
          | some (sq, l5) => some (⟨ph.reverse, pn, sc, sq⟩, l5)

/-- Parse one output: 8-byte little-endian value, length-prefixed script. -/
def parse_output (l : List Nat) : Option (TxOut × List Nat) :=
  match readLE 8 l with
  | none => none
  | some (v, l1) =>
    match read_compact_size_bytes l1 with
    | none => none
    | some (sl, l2) =>
      match readChunk sl l2 with
      | none => none
      | some (sc, l3) => some (⟨v, sc⟩, l3)

/-- Parse a counted run of items. -/
def parseMany {α : Type} (p : List Nat → Option (α × List Nat)) :
    Nat → List Nat → Option (List α × List Nat)
  | 0, l => some ([], l)
  | n + 1, l =>
    match p l with
    | none => none
    | some (x, l1) =>
      match parseMany p n l1 with
      | none => none
      | some (xs, rest) => some (x :: xs, rest)

/-- Modelled from the spec (4.7): deserialize parses version, compact-size
input count, the inputs, compact-size output count, the outputs and the lock
time, and demands the whole byte sequence be consumed. -/
def deserialize_tx (B : List Nat) : Option TxParsed :=
  match readLE 4 B with
  | none => none
  | some (ver, l1) =>
    match read_compact_size_bytes l1 with
    | none => none
    | some (nin, l2) =>
      match parseMany parse_input nin l2 with
      | none => none
      | some (ins, l3) =>
        match read_compact_size_bytes l3 with
        | none => none
        | some (nout, l4) =>
          match parseMany parse_output nout l4 with
          | none => none
          | some (outs, l5) =>
            match readLE 4 l5 with
            | none => none
            | some (lock, l6) =>
              if l6 = [] then some ⟨ver, ins, outs, lock⟩ else none

/-- Serialize one input. -/
def serialize_input (i : TxIn) : List Nat :=
  i.prevout_hash.reverse ++ leBytes 4 i.prevout_n ++
    wcsBytes i.scriptSig.length ++ i.scriptSig ++ leBytes 4 i.sequence

/-- Serialize one output. -/
def serialize_output (o : TxOut) : List Nat :=
  leBytes 8 o.value ++ wcsBytes o.scriptPubKey.length ++ o.scriptPubKey

/-- Serialize a structured transaction back to wire bytes. -/
def serialize_tx (t : TxParsed) : List Nat :=
  leBytes 4 t.version ++
    wcsBytes t.inputs.length ++ t.inputs.flatMap serialize_input ++
    wcsBytes t.outputs.length ++ t.outputs.flatMap serialize_output ++
    leBytes 4 t.lockTime

/-- The stateful transaction object: raw bytes plus the parse snapshot once
deserialize has run. -/
structure Transaction where
  raw : List Nat
  parsed : Option TxParsed
deriving DecidableEq

/-- Construct from raw bytes, not yet parsed. -/
def Transaction.ofBytes (B : List Nat) : Transaction := ⟨B, none⟩

/-- The single-shot deserialize method: parses on first call and stores the
snapshot; a second call on an already-parsed instance returns None. -/
def Transaction.deserialize (t : Transaction) : Option TxParsed × Transaction :=
  match t.parsed with
  | some _ => (none, t)
  | none =>
    match deserialize_tx t.raw with
    | some d => (some d, ⟨t.raw, some d⟩)
    | none => (none, t)

/-- The serialize method reproduces the wire bytes of the snapshot. -/
def Transaction.serialize (t : Transaction) : List Nat :=
  match t.parsed with
  | some d => serialize_tx d
  | none =>
    match deserialize_tx t.raw with
    | some d => serialize_tx d
    | none => t.raw

end TestLite

namespace TestLite

/-! ## HD key derivation (spec 4.4)

Modelled from the spec: the secp256k1 elliptic-curve library is not part of
the repository sources.  The secp256k1 group is cyclic of prime order n, so it
is modelled by that cyclic group: a public point is represented by its
discrete logarithm (a scalar below the order), the public point of a scalar is
its residue, point addition is addition modulo the order, and compressed
serialization is modelled as an injective 33-byte encoding of the point.  No
claim depends on the coordinate representation of points. -/

/-- The order of the secp256k1 group. -/
def secpOrder : Nat := 115792089237316195423570985008687907852837564279074904382605163141518161494337

/-- The hardened-index threshold (high bit of the child index). -/
def BIP32_PRIME : Nat := 2147483648

/-- Public point of a scalar, in the cyclic-group model. -/
def pointOf (k : Nat) : Nat := k % secpOrder

/-- Compressed 33-byte serialization of a point (even-parity tag). -/
def serPoint (P : Nat) : List Nat := 2 :: beBytes 32 P

/-- Uncompressed 65-byte serialization of a point. -/
def serPointUn (P : Nat) : List Nat := 4 :: beBytes 32 P ++ beBytes 32 P

/-- Private child-key derivation: hardened indices hash the zero-padded parent
scalar, non-hardened ones the compressed parent public point; the left half of
the HMAC-SHA-512 output is added to the parent scalar modulo the order and the
right half becomes the child chain code. -/
def CKD_priv (k : Nat) (c : List Nat) (i : Nat) : Nat × List Nat :=
  let data :=
    if BIP32_PRIME ≤ i then 0 :: beBytes 32 k ++ beBytes 4 i
    else serPoint (pointOf k) ++ beBytes 4 i
  let I := hmacSha512 c data
  ((beNum (I.take 32) + k) % secpOrder, I.drop 32)

/-- Public child-key derivation: the same non-hardened formula on public
points only; a hardened index is a derivation error. -/
def CKD_pub (K : Nat) (c : List Nat) (i : Nat) : Option (Nat × List Nat) :=
  if BIP32_PRIME ≤ i then none
  else
    let I := hmacSha512 c (serPoint K ++ beBytes 4 i)
    some ((beNum (I.take 32) + K) % secpOrder, I.drop 32)

/-- Version bytes of a standard extended private key (from the test vectors). -/
def XPRV_HEADER : List Nat := [2, 33, 49, 43]

/-- Version bytes of a standard extended public key (from the test vectors). -/
def XPUB_HEADER : List Nat := [2, 45, 37, 51]

/-- Version bytes of the second-family extended private key. -/
def DRKV_HEADER : List Nat := [2, 254, 82, 248]

/-- Version bytes of the second-family extended public key. -/
def DRKP_HEADER : List Nat := [2, 254, 82, 204]

/-- Private version bytes of a key family (0 = standard, otherwise drk). -/
def xprvHeader (xtype : Nat) : List Nat :=
  if xtype = 0 then XPRV_HEADER else DRKV_HEADER

/-- Public version bytes of a key family. -/
def xpubHeader (xtype : Nat) : List Nat :=
  if xtype = 0 then XPUB_HEADER else DRKP_HEADER

/-- Serialize an extended private key: version, depth, parent fingerprint,
child index, chain code, zero-prefixed scalar, Base58Check encoded. -/
def serialize_xprv (xtype : Nat) (c : List Nat) (k : Nat) (depth : Nat)
    (fingerprint child_number : List Nat) : String :=
  EncodeBase58Check (xprvHeader xtype ++ [depth % 256] ++ fingerprint ++
    child_number ++ c ++ 0 :: beBytes 32 k)

/-- Serialize an extended public key: version, depth, parent fingerprint,
child index, chain code, compressed point, Base58Check encoded. -/
def serialize_xpub (xtype : Nat) (c : List Nat) (cK : List Nat) (depth : Nat)
    (fingerprint child_number : List Nat) : String :=
  EncodeBase58Check (xpubHeader xtype ++ [depth % 256] ++ fingerprint ++
    child_number ++ c ++ cK)

/-- A structured extended private key (fields the derivation consumes). -/
structure XKeyPrv where
  xtype : Nat
  depth : Nat
  c : List Nat
  k : Nat
deriving DecidableEq

/-- A structured extended public key. -/
structure XKeyPub where
  xtype : Nat
  depth : Nat
  c : List Nat
  K : Nat
deriving DecidableEq

/-- Strip a private extended key to its public projection. -/
def xpubOfXprv (x : XKeyPrv) : XKeyPub := ⟨x.xtype, x.depth, x.c, pointOf x.k⟩

/-- State after walking a derivation path on the private side: child scalar,
chain code, depth, the scalar of the last parent, and the last index. -/
structure PrvState where
  k : Nat
  c : List Nat
  depth : Nat
  parent : Nat
  lastIndex : Nat
deriving DecidableEq

/-- State after walking a derivation path on the public side. -/
structure PubState where
  K : Nat
  c : List Nat
  depth : Nat
  parent : Nat
  lastIndex : Nat
deriving DecidableEq

/-- Walk a non-empty path of child indices on the private side. -/
def privSteps (k : Nat) (c : List Nat) (d : Nat) : List Nat → PrvState
  | [] => ⟨k, c, d, 0, 0⟩
  | i :: rest =>
    let kc := CKD_priv k c i
    match rest with
    | [] => ⟨kc.1, kc.2, d + 1, k, i⟩
    | _ => privSteps kc.1 kc.2 (d + 1) rest

/-- Walk a path of child indices on the public side; fails on hardened
indices. -/
def pubSteps (K : Nat) (c : List Nat) (d : Nat) : List Nat → Option PubState
  | [] => none
  | i :: rest =>
    match CKD_pub K c i with
    | none => none
    | some Kc =>
      match rest with
      | [] => some ⟨Kc.1, Kc.2, d + 1, K, i⟩
      | _ => pubSteps Kc.1 Kc.2 (d + 1) rest

/-- Private derivation along a path (a list of child indices, the high bit
marking hardened ones): returns the encoded child extended private and public
keys, with the fingerprint of the last parent and the last child index.
Modelled from the spec for a non-empty path suffix (the empty suffix is a
separate early-return in the code). -/
def bip32_private_derivation (x : XKeyPrv) (segs : List Nat) :
    Option (String × String) :=
  match segs with
  | [] => none
  | _ =>
    let st := privSteps x.k x.c x.depth segs
    let fp := (hash160 (serPoint (pointOf st.parent))).take 4
    let cn := beBytes 4 st.lastIndex
    some (serialize_xprv x.xtype st.c st.k st.depth fp cn,
          serialize_xpub x.xtype st.c (serPoint (pointOf st.k)) st.depth fp cn)

/-- Public derivation along a path: the same non-hardened formula on public
points; fails with a derivation error on any hardened index. -/
def bip32_public_derivation (x : XKeyPub) (segs : List Nat) : Option String :=
  match pubSteps x.K x.c x.depth segs with
  | none => none
  | some st =>
    some (serialize_xpub x.xtype st.c (serPoint st.K) st.depth
      ((hash160 (serPoint st.parent)).take 4) (beBytes 4 st.lastIndex))

/-- The HMAC key of the BIP32 master derivation (ASCII of Bitcoin seed). -/
def bitcoinSeedKey : List Nat := [66, 105, 116, 99, 111, 105, 110, 32, 115, 101, 101, 100]

/-- Master extended private key of a seed: HMAC-SHA-512 over the seed, left
half master scalar, right half master chain code, depth zero. -/
def bip32_root_data (xtype : Nat) (seed : List Nat) : XKeyPrv :=
  let I := hmacSha512 bitcoinSeedKey seed
  ⟨xtype, 0, I.drop 32, beNum (I.take 32)⟩

/-! ## Message signing and verification (spec 4.1)

Modelled from the spec: ECDSA with public-key recovery over secp256k1 (the
ecdsa library is not part of the repository sources).  In the cyclic-group
model the compact signature carries a recovery byte encoding the compression
flag, a 32-byte nonce commitment r and a 32-byte value s = sk + h * r mod n,
and recovery returns s - h * r mod n; a genuine signature recovers exactly
the signing public point.  Verification re-derives an address from the
recovered point and compares, returning a boolean on every input. -/

/-- Version byte of pay-to-pubkey-hash addresses (from the test vectors). -/
def ADDRTYPE_P2PKH : Nat := 75

/-- Version byte of pay-to-script-hash addresses (from the test vectors). -/
def ADDRTYPE_P2SH : Nat := 18

/-- Version byte of WIF private keys (from the test vectors). -/
def WIF_PREFIX : Nat := 212

/-- Pay-to-pubkey-hash address of a serialized public key. -/
def public_key_to_p2pkh (pub : List Nat) : String :=
  EncodeBase58Check (ADDRTYPE_P2PKH :: hash160 pub)

/-- Address of a public point under a compression convention. -/
def addrOfPoint (P : Nat) (compressed : Bool) : String :=
  public_key_to_p2pkh (if compressed then serPoint P else serPointUn P)

/-- The domain-separation envelope of signed messages: magic text and a
compact-size length prefix. -/
def msg_magic (m : List Nat) : List Nat :=
  25 :: [68,97,114,107,67,111,105,110,32,83,105,103,110,101,100,32,77,101,115,115,97,103,101,58,10] ++ wcsBytes m.length ++ m

/-- Message hash: double SHA-256 of the enveloped message, as a scalar. -/
def hashMsg (m : List Nat) : Nat := beNum (dsha256 (msg_magic m)) % secpOrder

/-- Produce the 65-byte compact signature: recovery byte (27, plus 4 when the
public key serializes compressed), then r and s, each 32-byte big-endian.
The nonce is derived deterministically from the key and message hash. -/
def sign_message (sk : Nat) (m : List Nat) (compressed : Bool) : List Nat :=
  let h := hashMsg m
  let r := beNum (dsha256 (beBytes 32 sk ++ dsha256 (msg_magic m))) % secpOrder
  let s := (sk + h * r) % secpOrder
  (27 + if compressed then 4 else 0) :: beBytes 32 r ++ beBytes 32 s

/-- Public-key recovery from a compact signature and message hash. -/
def recoverPoint (r s h : Nat) : Nat :=
  (s + (secpOrder - h * r % secpOrder)) % secpOrder

/-- Verify a signed message against an address: reject any signature that is
not 65 bytes or whose recovery byte is out of range, recover the candidate
public point, re-derive the address under the compression flag of the
recovery byte, and compare.  Total: returns false instead of raising. -/
def verify_message (addr : String) (sig : List Nat) (m : List Nat) : Bool :=
  if sig.length = 65 then
    let recid := sig.headD 0
    if 27 ≤ recid ∧ recid < 35 then
      let compressed := 31 ≤ recid
      let r := beNum ((sig.drop 1).take 32)
      let s := beNum (sig.drop 33)
      decide (addr = addrOfPoint (recoverPoint r s (hashMsg m)) compressed)
    else false
  else false

end TestLite

namespace TestLite

/-! ## UTF-8 codec

The code frames plaintexts as UTF-8; decoding is strict (continuation bytes,
overlong forms, surrogates and out-of-range code points are rejected), so a
decode failure signals a wrong password in pw_decode. -/

/-- UTF-8 bytes of one code point. -/
def utf8EncodeChar (c : Nat) : List Nat :=
  if c < 128 then [c]
  else if c < 2048 then [192 + c / 64, 128 + c % 64]
  else if c < 65536 then [224 + c / 4096, 128 + c / 64 % 64, 128 + c % 64]
  else [240 + c / 262144, 128 + c / 4096 % 64, 128 + c / 64 % 64, 128 + c % 64]

/-- UTF-8 encoding of a string. -/
def utf8Encode (s : String) : List Nat :=
  s.data.flatMap (fun c => utf8EncodeChar c.toNat)

/-- Strict decoding of one UTF-8 code point. -/
def utf8DecodeChar : List Nat → Option (Nat × List Nat)
  | [] => none
  | b :: rest =>
    if b < 128 then some (b, rest)
    else if b < 192 then none
    else if b < 224 then
      match rest with
      | b1 :: r =>
        if 128 ≤ b1 ∧ b1 < 192 then
          let c := (b - 192) * 64 + (b1 - 128)
          if 128 ≤ c then some (c, r) else none
        else none
      | _ => none
    else if b < 240 then
      match rest with
      | b1 :: b2 :: r =>
        if (128 ≤ b1 ∧ b1 < 192) ∧ (128 ≤ b2 ∧ b2 < 192) then
          let c := (b - 224) * 4096 + (b1 - 128) * 64 + (b2 - 128)
          if 2048 ≤ c ∧ (c < 55296 ∨ 57344 ≤ c) then some (c, r) else none
        else none
      | _ => none
    else if b < 248 then
      match rest with
      | b1 :: b2 :: b3 :: r =>
        if (128 ≤ b1 ∧ b1 < 192) ∧ (128 ≤ b2 ∧ b2 < 192) ∧ (128 ≤ b3 ∧ b3 < 192)
        then
          let c := (b - 240) * 262144 + (b1 - 128) * 4096 + (b2 - 128) * 64 +
            (b3 - 128)
          if 65536 ≤ c ∧ c < 1114112 then some (c, r) else none
        else none
      | _ => none
    else none

/-- Strict UTF-8 decoding of a byte sequence (fuel bounded by length). -/
def utf8DecodeAux : Nat → List Nat → Option (List Char)
  | 0, l => if l.isEmpty then some [] else none
  | fuel + 1, l =>
    match l with
    | [] => some []
    | _ =>
      match utf8DecodeChar l with
      | none => none
      | some (c, rest) => (utf8DecodeAux fuel rest).map (fun cs => Char.ofNat c :: cs)

/-- Strict UTF-8 decoding of a byte sequence into a string. -/
def utf8Decode (l : List Nat) : Option String :=
  (utf8DecodeAux l.length l).map (fun cs => ⟨cs⟩)

/-! ## Base64 transport -/

/-- The base-64 alphabet. -/
def b64chars : List Char :=
  "ABCDEFGHIJKLMNOPQRSTUVWXYZabcdefghijklmnopqrstuvwxyz0123456789+/".data

/-- Digit character of a 6-bit value. -/
def b64digit (n : Nat) : Char := b64chars.getD n (Char.ofNat 65)

/-- Value of a base-64 digit character, if it is one. -/
def b64charVal (c : Char) : Option Nat := idxOfAux c b64chars 0

/-- The padding character. -/
def b64pad : Char := Char.ofNat 61

/-- Base-64 encoding of a byte sequence, with terminal padding. -/
def base64Encode : List Nat → List Char
  | [] => []
  | [a] => [b64digit (a / 4), b64digit (a % 4 * 16), b64pad, b64pad]
  | [a, b] =>
    [b64digit (a / 4), b64digit (a % 4 * 16 + b / 16), b64digit (b % 16 * 4),
     b64pad]
  | a :: b :: c :: rest =>
    b64digit (a / 4) :: b64digit (a % 4 * 16 + b / 16) ::
      b64digit (b % 16 * 4 + c / 64) :: b64digit (c % 64) :: base64Encode rest

/-- Strict base-64 decoding: four-character groups, padding only terminal,
zero spill bits. -/
def base64Decode : List Char → Option (List Nat)
  | [] => some []
  | c0 :: c1 :: c2 :: c3 :: rest =>
    match b64charVal c0, b64charVal c1 with
    | some v0, some v1 =>
      if c2 = b64pad then
        if c3 = b64pad ∧ rest = [] ∧ v1 % 16 = 0 then some [v0 * 4 + v1 / 16]
        else none
      else
        match b64charVal c2 with
        | some v2 =>
          if c3 = b64pad then
            if rest = [] ∧ v2 % 4 = 0 then
              some [v0 * 4 + v1 / 16, v1 % 16 * 16 + v2 / 4]
            else none
          else
            match b64charVal c3 with
            | some v3 =>
              (base64Decode rest).map
                (fun tl => (v0 * 4 + v1 / 16) :: (v1 % 16 * 16 + v2 / 4) ::
                  (v2 % 4 * 64 + v3) :: tl)
            | none => none
        | none => none
    | _, _ => none
  | _ => none

/-! ## Secret encryption (spec 4.6)

Modelled from the spec: the AES module (pyaes) is not part of the repository
sources, so the block cipher is implemented here as AES-256 itself per
FIPS 197 (S-box substitution, row shifts, column mixing over the AES field
and the 256-bit key schedule, validated against the FIPS 197 test vector);
the CBC chaining, PKCS padding, random IV (externalized as an explicit
parameter), IV prepending and base64 transport follow the spec. -/

/-- Symmetric key of a password: iterated (double) SHA-256 of its UTF-8. -/
def keyOfPassword (p : String) : List Nat := dsha256 (utf8Encode p)

/-- Bytewise exclusive or. -/
def xorBytes (a b : List Nat) : List Nat := a.zipWith (· ^^^ ·) b

/-- The AES substitution box. -/
def sbox : List Nat :=
  [99, 124, 119, 123, 242, 107, 111, 197, 48, 1, 103, 43, 254, 215, 171, 118,
   202, 130, 201, 125, 250, 89, 71, 240, 173, 212, 162, 175, 156, 164, 114,
   192, 183, 253, 147, 38, 54, 63, 247, 204, 52, 165, 229, 241, 113, 216, 49,
   21, 4, 199, 35, 195, 24, 150, 5, 154, 7, 18, 128, 226, 235, 39, 178, 117,
   9, 131, 44, 26, 27, 110, 90, 160, 82, 59, 214, 179, 41, 227, 47, 132, 83,
   209, 0, 237, 32, 252, 177, 91, 106, 203, 190, 57, 74, 76, 88, 207, 208,
   239, 170, 251, 67, 77, 51, 133, 69, 249, 2, 127, 80, 60, 159, 168, 81, 163,
   64, 143, 146, 157, 56, 245, 188, 182, 218, 33, 16, 255, 243, 210, 205, 12,
   19, 236, 95, 151, 68, 23, 196, 167, 126, 61, 100, 93, 25, 115, 96, 129, 79,
   220, 34, 42, 144, 136, 70, 238, 184, 20, 222, 94, 11, 219, 224, 50, 58, 10,
   73, 6, 36, 92, 194, 211, 172, 98, 145, 149, 228, 121, 231, 200, 55, 109,
   141, 213, 78, 169, 108, 86, 244, 234, 101, 122, 174, 8, 186, 120, 37, 46,
   28, 166, 180, 198, 232, 221, 116, 31, 75, 189, 139, 138, 112, 62, 181, 102,
   72, 3, 246, 14, 97, 53, 87, 185, 134, 193, 29, 158, 225, 248, 152, 17, 105,
   217, 142, 148, 155, 30, 135, 233, 206, 85, 40, 223, 140, 161, 137, 13, 191,
   230, 66, 104, 65, 153, 45, 15, 176, 84, 187, 22]

/-- The inverse AES substitution box. -/
def invSbox : List Nat :=
  [82, 9, 106, 213, 48, 54, 165, 56, 191, 64, 163, 158, 129, 243, 215, 251,
   124, 227, 57, 130, 155, 47, 255, 135, 52, 142, 67, 68, 196, 222, 233, 203,
   84, 123, 148, 50, 166, 194, 35, 61, 238, 76, 149, 11, 66, 250, 195, 78, 8,
   46, 161, 102, 40, 217, 36, 178, 118, 91, 162, 73, 109, 139, 209, 37, 114,
   248, 246, 100, 134, 104, 152, 22, 212, 164, 92, 204, 93, 101, 182, 146,
   108, 112, 72, 80, 253, 237, 185, 218, 94, 21, 70, 87, 167, 141, 157, 132,
   144, 216, 171, 0, 140, 188, 211, 10, 247, 228, 88, 5, 184, 179, 69, 6, 208,
   44, 30, 143, 202, 63, 15, 2, 193, 175, 189, 3, 1, 19, 138, 107, 58, 145,
   17, 65, 79, 103, 220, 234, 151, 242, 207, 206, 240, 180, 230, 115, 150,
   172, 116, 34, 231, 173, 53, 133, 226, 249, 55, 232, 28, 117, 223, 110, 71,
   241, 26, 113, 29, 41, 197, 137, 111, 183, 98, 14, 170, 24, 190, 27, 252,
   86, 62, 75, 198, 210, 121, 32, 154, 219, 192, 254, 120, 205, 90, 244, 31,
   221, 168, 51, 136, 7, 199, 49, 177, 18, 16, 89, 39, 128, 236, 95, 96, 81,
   127, 169, 25, 181, 74, 13, 45, 229, 122, 159, 147, 201, 156, 239, 160, 224,
   59, 77, 174, 42, 245, 176, 200, 235, 187, 60, 131, 83, 153, 97, 23, 43, 4,
   126, 186, 119, 214, 38, 225, 105, 20, 99, 85, 33, 12, 125]

/-- S-box substitution of one byte. -/
def subByte (b : Nat) : Nat := sbox.getD b 0

/-- Inverse S-box substitution of one byte. -/
def invSubByte (b : Nat) : Nat := invSbox.getD b 0

/-- SubBytes: S-box substitution of the whole state. -/
def subBytes (s : List Nat) : List Nat := s.map subByte

/-- InvSubBytes: inverse substitution of the whole state. -/
def invSubBytes (s : List Nat) : List Nat := s.map invSubByte

/-- ShiftRows on the column-major state (row r rotates left by r). -/
def shiftRows : List Nat → List Nat
  | [b0, b1, b2, b3, b4, b5, b6, b7, b8, b9, b10, b11, b12, b13, b14, b15] =>
    [b0, b5, b10, b15, b4, b9, b14, b3, b8, b13, b2, b7, b12, b1, b6, b11]
  | l => l

/-- InvShiftRows (row r rotates right by r). -/
def invShiftRows : List Nat → List Nat
  | [b0, b1, b2, b3, b4, b5, b6, b7, b8, b9, b10, b11, b12, b13, b14, b15] =>
    [b0, b13, b10, b7, b4, b1, b14, b11, b8, b5, b2, b15, b12, b9, b6, b3]
  | l => l

/-- Multiplication by x in the AES field (xtime). -/
def xtime (b : Nat) : Nat := (2 * b) % 256 ^^^ 27 * (2 * b / 256)

/-- Multiplication by 2 in the AES field. -/
def gmul2 (b : Nat) : Nat := xtime b

/-- Multiplication by 3 in the AES field. -/
def gmul3 (b : Nat) : Nat := xtime b ^^^ b

/-- Multiplication by 9 in the AES field. -/
def gmul9 (b : Nat) : Nat := xtime (xtime (xtime b)) ^^^ b

/-- Multiplication by 11 in the AES field. -/
def gmul11 (b : Nat) : Nat := xtime (xtime (xtime b)) ^^^ xtime b ^^^ b

/-- Multiplication by 13 in the AES field. -/
def gmul13 (b : Nat) : Nat := xtime (xtime (xtime b)) ^^^ xtime (xtime b) ^^^ b

/-- Multiplication by 14 in the AES field. -/
def gmul14 (b : Nat) : Nat :=
  xtime (xtime (xtime b)) ^^^ xtime (xtime b) ^^^ xtime b

/-- MixColumns on a single column. -/
def mixCol (a b c d : Nat) : List Nat :=
  [gmul2 a ^^^ gmul3 b ^^^ c ^^^ d,
   a ^^^ gmul2 b ^^^ gmul3 c ^^^ d,
   a ^^^ b ^^^ gmul2 c ^^^ gmul3 d,
   gmul3 a ^^^ b ^^^ c ^^^ gmul2 d]

/-- InvMixColumns on a single column. -/
def invMixCol (e f g h : Nat) : List Nat :=
  [gmul14 e ^^^ gmul11 f ^^^ gmul13 g ^^^ gmul9 h,
   gmul9 e ^^^ gmul14 f ^^^ gmul11 g ^^^ gmul13 h,
   gmul13 e ^^^ gmul9 f ^^^ gmul14 g ^^^ gmul11 h,
   gmul11 e ^^^ gmul13 f ^^^ gmul9 g ^^^ gmul14 h]

/-- MixColumns over the four columns of the state. -/
def mixColumns : List Nat → List Nat
  | [a0, a1, a2, a3, b0, b1, b2, b3, c0, c1, c2, c3, d0, d1, d2, d3] =>
    mixCol a0 a1 a2 a3 ++ mixCol b0 b1 b2 b3 ++ mixCol c0 c1 c2 c3 ++
      mixCol d0 d1 d2 d3
  | l => l

/-- InvMixColumns over the four columns of the state. -/
def invMixColumns : List Nat → List Nat
  | [a0, a1, a2, a3, b0, b1, b2, b3, c0, c1, c2, c3, d0, d1, d2, d3] =>
    invMixCol a0 a1 a2 a3 ++ invMixCol b0 b1 b2 b3 ++ invMixCol c0 c1 c2 c3 ++
      invMixCol d0 d1 d2 d3
  | l => l

/-- The AES round constants (AES-256 uses the first seven). -/
def rcon : List Nat := [1, 2, 4, 8, 16, 32, 64]

/-- Cyclic rotation of a key word. -/
def rotWord : List Nat → List Nat
  | [a, b, c, d] => [b, c, d, a]
  | l => l

/-- S-box substitution of a key word. -/
def subWord (w : List Nat) : List Nat := w.map subByte

/-- The next expansion word from the window of the last eight words, i being
the index of the word being generated. -/
def nextWord (prev8 : List (List Nat)) (i : Nat) : List Nat :=
  xorBytes (prev8.getD 0 [])
    (if i % 8 = 0 then
      xorBytes (subWord (rotWord (prev8.getD 7 [])))
        [rcon.getD (i / 8 - 1) 0, 0, 0, 0]
    else if i % 8 = 4 then subWord (prev8.getD 7 [])
    else prev8.getD 7 [])

/-- Key expansion: generate count further words from the window of the last
eight. -/
def expandAux : Nat → List (List Nat) → Nat → List (List Nat)
  | 0, _, _ => []
  | count + 1, prev8, i =>
    nextWord prev8 i ::
      expandAux count (prev8.drop 1 ++ [nextWord prev8 i]) (i + 1)

/-- Split bytes into four-byte key words (fuel bounded). -/
def chunkWords : Nat → List Nat → List (List Nat)
  | 0, _ => []
  | fuel + 1, l =>
    match l with
    | [] => []
    | _ => l.take 4 :: chunkWords fuel (l.drop 4)

/-- The sixty expanded key words of AES-256. -/
def aesWords (key : List Nat) : List (List Nat) :=
  chunkWords 8 key ++ expandAux 52 (chunkWords 8 key) 8

/-- Group four consecutive words into one sixteen-byte round key. -/
def groupRK : List (List Nat) → List (List Nat)
  | w0 :: w1 :: w2 :: w3 :: rest => (w0 ++ w1 ++ w2 ++ w3) :: groupRK rest
  | _ => []

/-- The fifteen round keys of AES-256. -/
def aesRoundKeys (key : List Nat) : List (List Nat) := groupRK (aesWords key)

/-- One middle encryption round. -/
def encRound (rk s : List Nat) : List Nat :=
  xorBytes (mixColumns (shiftRows (subBytes s))) rk

/-- One middle decryption round. -/
def decRound (rk s : List Nat) : List Nat :=
  invSubBytes (invShiftRows (invMixColumns (xorBytes s rk)))

/-- The middle encryption rounds, keys in application order. -/
def encRounds : List (List Nat) → List Nat → List Nat
  | [], s => s
  | rk :: rest, s => encRounds rest (encRound rk s)

/-- The middle decryption rounds, keys in application order. -/
def decRounds : List (List Nat) → List Nat → List Nat
  | [], s => s
  | rk :: rest, s => decRounds rest (decRound rk s)

/-- AES-256 encryption of one sixteen-byte block. -/
def encBlock (key b : List Nat) : List Nat :=
  let rks := aesRoundKeys key
  xorBytes
    (shiftRows (subBytes (encRounds ((rks.drop 1).take 13)
      (xorBytes b (rks.headD [])))))
    (rks.getD 14 [])

/-- AES-256 decryption of one sixteen-byte block. -/
def decBlock (key c : List Nat) : List Nat :=
  let rks := aesRoundKeys key
  xorBytes
    (decRounds ((rks.drop 1).take 13).reverse
      (invSubBytes (invShiftRows (xorBytes c (rks.getD 14 [])))))
    (rks.headD [])

/-- CBC encryption (fuel bounded by the byte length). -/
def cbcEnc (key : List Nat) : Nat → List Nat → List Nat → List Nat
  | 0, _, _ => []
  | fuel + 1, prev, l =>
    match l with
    | [] => []
    | _ =>
      let cblk := encBlock key (xorBytes (l.take 16) prev)
      cblk ++ cbcEnc key fuel cblk (l.drop 16)

/-- CBC decryption. -/
def cbcDec (key : List Nat) : Nat → List Nat → List Nat → List Nat
  | 0, _, _ => []
  | fuel + 1, prev, l =>
    match l with
    | [] => []
    | _ =>
      xorBytes (decBlock key (l.take 16)) prev ++
        cbcDec key fuel (l.take 16) (l.drop 16)

/-- PKCS-style padding to a block multiple (always adds 1 to 16 bytes). -/
def pkcs7Pad (b : List Nat) : List Nat :=
  let k := 16 - b.length % 16
  b ++ List.replicate k k

/-- PKCS-style padding validation and removal; fails on an invalid tail. -/
def pkcs7Strip (b : List Nat) : Option (List Nat) :=
  if b.length = 0 ∨ b.length % 16 ≠ 0 then none
  else
    let v := b.getD (b.length - 1) 0
    if v = 0 ∨ 16 < v ∨ b.length < v then none
    else if b.drop (b.length - v) = List.replicate v v then
      some (b.take (b.length - v))
    else none

/-- Encrypt: pad, CBC under the key with the supplied IV, prepend the IV. -/
def EncodeAES (key iv msg : List Nat) : List Nat :=
  let p := pkcs7Pad msg
  iv ++ cbcEnc key p.length iv p

/-- Password encryption of a plaintext string.  Without a password (or with
the empty falsy password) this is an explicit no-op passthrough; otherwise
derive the key, encrypt the UTF-8 plaintext under the supplied IV and
base64-encode. -/
def pw_encode (s : String) (password : Option String) (iv : List Nat) :
    String :=
  match password with
  | none => s
  | some p =>
    if p = "" then s
    else ⟨base64Encode (EncodeAES (keyOfPassword p) iv (utf8Encode s))⟩

/-- Password decryption: passthrough without a password; otherwise base64
decode, split the IV, CBC-decrypt, validate and strip the padding, and
validate UTF-8 — every validation failure is the distinct decryption error
(the InvalidPassword signal). -/
def pw_decode (s : String) (password : Option String) : Except Unit String :=
  match password with
  | none => .ok s
  | some p =>
    if p = "" then .ok s
    else
      match base64Decode s.data with
      | none => .error ()
      | some data =>
        if data.length % 16 ≠ 0 ∨ data.length < 16 then .error ()
        else
          let key := keyOfPassword p
          let pt := cbcDec key (data.drop 16).length (data.take 16)
            (data.drop 16)
          match pkcs7Strip pt with
          | none => .error ()
          | some body =>
            match utf8Decode body with
            | none => .error ()
            | some str => .ok str

end TestLite

namespace TestLite

/-! ## Seed classification (spec 4.5) -/

/-- ASCII lowering of one character. -/
def lowerChar (c : Char) : Char :=
  if 65 ≤ c.toNat ∧ c.toNat ≤ 90 then Char.ofNat (c.toNat + 32) else c

/-- Whitespace characters (space, tab, feeds, newline, return). -/
def isWSChar (c : Char) : Bool :=
  decide (c.toNat = 32 ∨ c.toNat = 9 ∨ c.toNat = 10 ∨ c.toNat = 13 ∨
    c.toNat = 11 ∨ c.toNat = 12)

/-- Split a character list at whitespace runs, dropping empties. -/
def splitWSAux : List Char → List Char → List (List Char)
  | [], cur => if cur.isEmpty then [] else [cur.reverse]
  | c :: rest, cur =>
    if isWSChar c then
      if cur.isEmpty then splitWSAux rest []
      else cur.reverse :: splitWSAux rest []
    else splitWSAux rest (c :: cur)

/-- The lowercased words of a phrase. -/
def wordsOf (s : String) : List (List Char) :=
  splitWSAux (s.data.map lowerChar) []

/-- Join word characters with single spaces. -/
def joinSpace : List (List Char) → List Char
  | [] => []
  | [w] => w
  | w :: rest => w ++ Char.ofNat 32 :: joinSpace rest

/-- Normalization of a mnemonic phrase: lowercase, collapse internal
whitespace, strip.  Modelled from the spec; the Unicode NFKD and CJK rules
are identities on the inputs considered here. -/
def normalize_text (seed : String) : String := ⟨joinSpace (wordsOf seed)⟩

/-- Words of a normalized phrase. -/
def seedWords (s : String) : List String :=
  (wordsOf s).map (fun w => ⟨w⟩)

/-- Boolean character-list prefix test. -/
def charsPrefix : List Char → List Char → Bool
  | [], _ => true
  | _ :: _, [] => false
  | p :: ps, c :: cs => p = c && charsPrefix ps cs

/-- Modelled from the spec: the fixed legacy wordlist of 1626 words (the
old_mnemonic module is absent from the repository sources).  The first twelve
entries are the documented head of the list; the remainder are synthetic —
no claim depends on the concrete words, only on membership and indices. -/
def old_wordlist : List String :=
  ["like", "just", "love", "know", "never", "want", "time", "out", "there",
   "make", "look", "eye"] ++
    (List.range 1614).map (fun i => "w" ++ toString (i + 12))

/-- Index search in a string list. -/
def idxOfStr (w : String) : List String → Nat → Option Nat
  | [], _ => none
  | x :: xs, i => if x = w then some i else idxOfStr w xs (i + 1)

/-- Minimal hex digits of a natural (fuel bounded), most significant first. -/
def hexOfNatMin : Nat → Nat → List Char
  | 0, _ => []
  | fuel + 1, n =>
    if n = 0 then [] else hexOfNatMin fuel (n / 16) ++ [hexDigit (n % 16)]

/-- Hex of a natural padded to (at least) eight digits, as the %08x format
of the code: wider values keep all their digits. -/
def hexPad8 (x : Nat) : List Char :=
  let d := if x = 0 then [hexDigit 0] else hexOfNatMin 16 x
  List.replicate (8 - d.length) (hexDigit 0) ++ d

/-- The legacy wordlist size. -/
def oldWordlistSize : Nat := 1626

/-- Legacy mnemonic decoding: three words become one number rendered in the
eight-or-more hex digit format; words beyond the last full group are ignored
(as in the code); an unknown word inside a group fails. -/
def mn_decode_words : List String → Option (List Char)
  | w1 :: w2 :: w3 :: rest =>
    match idxOfStr w1 old_wordlist 0, idxOfStr w2 old_wordlist 0,
        idxOfStr w3 old_wordlist 0, mn_decode_words rest with
    | some i1, some i2, some i3, some tl =>
      let n := oldWordlistSize
      let x := i1 + n * (((i2 : Int) - i1).emod n).toNat +
        n * n * (((i3 : Int) - i2).emod n).toNat
      some (hexPad8 x ++ tl)
    | _, _, _, _ => none
  | _ => some []

/-- Legacy seed classification, behaviour pinned by the test suite: the
normalized phrase is an old seed when it hex-decodes to exactly 16 or 32
bytes, or when the wordlist decoding succeeds and the word count is 12 or 24
(the length of the decoded string itself is deliberately not checked). -/
def is_old_seed (seed : String) : Bool :=
  let s := normalize_text seed
  let words := seedWords seed
  let uses_electrum_words := (mn_decode_words words).isSome
  let is_hex :=
    match hexStrToBytes s with
    | some b => decide (b.length = 16 ∨ b.length = 32)
    | none => false
  is_hex || (uses_electrum_words && (words.length = 12 || words.length = 24))

/-- The fixed HMAC key of versioned seeds (ASCII of Seed version). -/
def seedVersionKey : List Nat :=
  [83, 101, 101, 100, 32, 118, 101, 114, 115, 105, 111, 110]

/-- The configured version prefix of standard seeds. -/
def seedVersionStd : String := "01"

/-- Hex digest of the versioned-seed HMAC over the normalized phrase. -/
def seedHexDigest (x : String) : String :=
  bytesToHex (hmacSha512 seedVersionKey (utf8Encode (normalize_text x)))

/-- Versioned seed classification: the digest must begin with the configured
version prefix; no wordlist or length requirement. -/
def is_new_seed (x : String) : Bool :=
  charsPrefix seedVersionStd.data (seedHexDigest x).data

/-- Seed classification: old first, then standard, else the empty marker. -/
def seed_type (x : String) : String :=
  if is_old_seed x then "old"
  else if is_new_seed x then "standard"
  else ""

/-! ## Classification predicates (spec 4.3)

Each predicate is total: a parse failure yields false, never an exception
(the try/except wrappers of the code become explicit match arms). -/

/-- Decode an address to its version byte and hash160 (no checksum check at
this stage, as in the code: a fixed 25-byte base-58 decode). -/
def b58_address_to_hash160 (addr : String) : Option (Nat × List Nat) :=
  match base_decode addr 25 with
  | none => none
  | some b => some (b.headD 0, (b.drop 1).take 20)

/-- Re-encode a hash160 under a version byte (checksummed). -/
def hash160_to_b58_address (h : List Nat) (addrtype : Nat) : String :=
  EncodeBase58Check (addrtype :: h)

/-- Base-58 address predicate: decodes to 25 bytes, carries a configured
version byte, and re-encodes canonically to the same text (which enforces the
checksum). -/
def is_b58_address (addr : String) : Bool :=
  match b58_address_to_hash160 addr with
  | none => false
  | some (t, h) =>
    (t = ADDRTYPE_P2PKH || t = ADDRTYPE_P2SH) &&
      hash160_to_b58_address h t = addr

/-- Address predicate. -/
def is_address (addr : String) : Bool := is_b58_address addr

/-- Minikey predicate: at least 20 characters, leading S, base-58 alphabet,
and a fixed-prefix hash check over the text with a question mark appended. -/
def is_minikey (text : String) : Bool :=
  decide (20 ≤ text.length) &&
    text.data.headD (Char.ofNat 0) = Char.ofNat 83 &&
    text.data.all (fun c => (b58charVal c).isSome) &&
    (sha256 (utf8Encode (text ++ "?"))).headD 1 = 0

/-- The script-type offsets added to the WIF version byte (modelled: the
p2pkh offset zero is pinned by the test vectors, p2sh from upstream). -/
def SCRIPT_OFFSETS : List Nat := [0, 5]

/-- WIF deserialization: a minikey is accepted as a compressed p2pkh key with
its hashed scalar; otherwise Base58Check decode, 33 or 34 byte payload,
version byte matching a configured script type; the 34th byte means
compressed. -/
def deserialize_privkey (key : String) : Except Unit (Nat × List Nat × Bool) :=
  if is_minikey key then .ok (0, sha256 (utf8Encode key), true)
  else
    match DecodeBase58Check key with
    | none => .error ()
    | some vch =>
      if vch.length = 33 ∨ vch.length = 34 then
        let v := vch.headD 0
        if WIF_PREFIX ≤ v ∧ (v - WIF_PREFIX) ∈ SCRIPT_OFFSETS then
          .ok (v - WIF_PREFIX, (vch.drop 1).take 32, decide (vch.length = 34))
        else .error ()
      else .error ()

/-- Private-key predicate: WIF deserialization succeeds. -/
def is_private_key (key : String) : Bool := (deserialize_privkey key).isOk

/-- Compression flag of a WIF key; false on unparseable input. -/
def is_compressed (key : String) : Bool :=
  match deserialize_privkey key with
  | .ok kpc => kpc.2.2
  | .error _ => false

/-- Extended-key deserialization against a set of version headers:
Base58Check decode, 78-byte payload, configured version bytes; returns depth,
fingerprint, child index, chain code and key material. -/
def deserialize_xkey (headers : List (List Nat)) (s : String) :
    Except Unit (Nat × List Nat × List Nat × List Nat × List Nat) :=
  match DecodeBase58Check s with
  | none => .error ()
  | some b =>
    if b.length = 78 ∧ b.take 4 ∈ headers then
      .ok (b.getD 4 0, ((b.drop 5).take 4, (b.drop 9).take 4,
        (b.drop 13).take 32, b.drop 45))
    else .error ()

/-- Extended public key predicate. -/
def is_xpub (s : String) : Bool := (deserialize_xkey [XPUB_HEADER] s).isOk

/-- Extended private key predicate. -/
def is_xprv (s : String) : Bool := (deserialize_xkey [XPRV_HEADER] s).isOk

/-- A nonempty all-digit numeral. -/
def parseNatDigits (l : List Char) : Option Nat :=
  if l.isEmpty then none
  else if l.all (fun c => decide (48 ≤ c.toNat ∧ c.toNat ≤ 57)) then
    some (l.foldl (fun a c => 10 * a + (c.toNat - 48)) 0)
  else none

/-- One derivation-path segment: digits with an optional trailing hardened
mark (apostrophe, code point 39). -/
def parseSeg (seg : List Char) : Option Nat :=
  match seg.getLast? with
  | none => none
  | some c =>
    if c = Char.ofNat 39 then
      (parseNatDigits seg.dropLast).map (fun v => v + BIP32_PRIME)
    else parseNatDigits seg

/-- Split a character list at slashes, keeping empty segments. -/
def splitSlashAux : List Char → List Char → List (List Char)
  | [], cur => [cur.reverse]
  | c :: rest, cur =>
    if c = Char.ofNat 47 then cur.reverse :: splitSlashAux rest []
    else splitSlashAux rest (c :: cur)

/-- Derivation-path predicate: every segment after the root parses as an
index and the text starts with the master marker. -/
def is_bip32_derivation (x : String) : Bool :=
  ((splitSlashAux x.data []).drop 1).all (fun seg => (parseSeg seg).isSome) &&
    charsPrefix "m/".data x.data

end TestLite

namespace TestLite

/-! ## Reference definitions written from the claim wording, and concrete
vectors used by witnesses and counterexamples -/

/-- The push-length encoding as the claim words it: 0 to 0x4b a single byte,
0x4c to 0xff marker 4c, 0x100 to 0xffff marker 4d, larger marker 4e. -/
def op_push_claim (n : Nat) : String :=
  if n ≤ 75 then int_to_hex n 1
  else if n ≤ 255 then "4c" ++ int_to_hex n 1
  else if n ≤ 65535 then "4d" ++ int_to_hex n 2
  else "4e" ++ int_to_hex n 4

/-- The old-seed condition as the claim words it: the stripped phrase decodes
as raw hex to exactly 16 or 32 bytes, or the wordlist decoding yields a byte
string of the corresponding length (16 bytes for 12 words, 32 for 24). -/
def old_seed_claim (seed : String) : Bool :=
  (match hexStrToBytes (normalize_text seed) with
   | some b => decide (b.length = 16 ∨ b.length = 32)
   | none => false) ||
  (match mn_decode_words (seedWords seed) with
   | some hx =>
     match hexToBytes hx with
     | some b =>
       decide ((seedWords seed).length = 12 ∧ b.length = 16 ∨
         (seedWords seed).length = 24 ∧ b.length = 32)
     | none => false
   | none => false)

/-- The legacy-seed classification as the code has it, for the amended claim:
the wordlist branch asks only that the looked-up words resolve and that the
word count be 12 or 24. -/
def old_seed_amended (seed : String) : Bool :=
  (match hexStrToBytes (normalize_text seed) with
   | some b => decide (b.length = 16 ∨ b.length = 32)
   | none => false) ||
  ((mn_decode_words (seedWords seed)).isSome &&
    decide ((seedWords seed).length = 12 ∨ (seedWords seed).length = 24))

/-- The digest condition of the standard-seed claim: the hex digest of the
versioned-seed HMAC over the normalized phrase begins with the configured
version prefix. -/
def newSeedDigestOK (x : String) : Prop :=
  charsPrefix seedVersionStd.data (seedHexDigest x).data = true

instance newSeedDigestOKDecidable (x : String) : Decidable (newSeedDigestOK x) := by
  unfold newSeedDigestOK; infer_instance

/-- A twelve-word phrase over the modelled wordlist whose groups decode past
eight hex digits (the group value exceeds 2 to the 32). -/
def oldSeedOverflowPhrase : String :=
  "w1625 w1624 w1623 w1625 w1624 w1623 w1625 w1624 w1623 w1625 w1624 w1623"

/-- A sixteen-byte hex phrase whose seed-version digest also begins with the
standard prefix: it classifies both old and standard-eligible. -/
def bothOldAndNewSeed : String := "0000000000000000000000000000021c"

/-- The 65-byte compact signature of the concrete C6 vectors: the signature
of the message one-two-three under the scalar 7777 with compression. -/
def c6SigBytes : List Nat :=
  [31, 233, 22, 39, 255, 139, 6, 18, 115, 123, 123, 178, 233, 150, 87,
   135, 255, 30, 2, 35, 98, 96, 190, 44, 19, 235, 78, 230, 196, 67, 148,
   57, 179, 61, 45, 31, 24, 9, 128, 61, 208, 122, 212, 58, 109, 129, 27,
   181, 127, 104, 186, 120, 98, 231, 103, 71, 217, 102, 140, 128, 124,
   46, 188, 148, 139]

/-- The compressed address of the scalar 7777 in the concrete C6 vectors. -/
def c6AddrA : String := "XW5GGtW6qbhTCEbHxGUV9ks5wLgkKJ9zau"

/-- The compressed address of the scalar 8888 in the concrete C6 vectors. -/
def c6AddrB : String := "XHWDyyuAjXFQG4fw7CCFVcnkYv1P6sWc7h"

/-- The version-two transaction blob of the test suite (test_version_field). -/
def v2blob : List Nat := [2, 0, 0, 0, 1, 25, 22, 1, 164, 74, 129, 224, 97, 80, 43, 123, 251, 198, 234, 161, 206, 246, 209, 230, 175, 83, 8, 239, 150, 201, 52, 47, 113, 219, 244, 185, 181, 0, 0, 0, 0, 107, 72, 48, 69, 2, 33, 0, 166, 212, 77, 10, 101, 23, 144, 164, 119, 231, 83, 52, 173, 251, 138, 174, 148, 214, 97, 45, 1, 24, 123, 44, 2, 82, 110, 52, 10, 127, 214, 200, 2, 32, 40, 189, 247, 166, 74, 84, 144, 107, 19, 177, 69, 205, 93, 171, 33, 162, 107, 212, 184, 93, 96, 68, 233, 185, 123, 206, 171, 91, 228, 76, 42, 146, 1, 33, 2, 83, 232, 224, 37, 75, 12, 149, 119, 103, 134, 228, 9, 132, 193, 170, 50, 167, 208, 62, 250, 107, 218, 205, 234, 95, 66, 27, 119, 73, 23, 211, 70, 254, 255, 255, 255, 2, 107, 32, 250, 4, 0, 0, 0, 0, 25, 118, 169, 20, 2, 77, 178, 232, 125, 215, 207, 208, 229, 242, 102, 197, 242, 18, 226, 26, 49, 216, 5, 165, 136, 172, 160, 134, 1, 0, 0, 0, 0, 0, 25, 118, 169, 20, 33, 145, 155, 148, 174, 92, 239, 205, 240, 39, 17, 145, 69, 145, 87, 205, 180, 28, 76, 191, 136, 172, 166, 36, 7, 0]

/-- The byte content the test suite writes before exercising read_bytes
(ASCII of foobar). -/
def foobarBytes : List Nat := [102, 111, 111, 98, 97, 114]

/-- The all-zero initialization vector used by concrete encryption vectors. -/
def zeroIV : List Nat := List.replicate 16 0

/-- The plaintext of the wrong-password counterexample. -/
def c7Plain : String := "attack at dawn!"

/-- A wrong password under which the counterexample ciphertext decrypts to
validly padded, UTF-8 valid garbage. -/
def c7WrongPw : String := "pw63667"

/-- The bytes of the garbage plaintext that wrong password yields. -/
def c7GarbageBytes : List Nat :=
  [83, 28, 8, 94, 19, 77, 102, 65, 213, 170, 32, 94, 113, 44, 12]

/-- The garbage string that wrong password yields. -/
def c7Garbage : String := (utf8Decode c7GarbageBytes).getD ""



/-- Decidable equality of fallible results. -/
instance exceptDecidableEq {e a : Type} [DecidableEq e] [DecidableEq a] :
    DecidableEq (Except e a)
  | .ok x, .ok y =>
    if h : x = y then .isTrue (by rw [h]) else .isFalse (fun hc => h (Except.ok.inj hc))
  | .error x, .error y =>
    if h : x = y then .isTrue (by rw [h]) else .isFalse (fun hc => h (Except.error.inj hc))
  | .ok _, .error _ => .isFalse (fun hc => Except.noConfusion hc)
  | .error _, .ok _ => .isFalse (fun hc => Except.noConfusion hc)

/-! ## Byte-level lemmas -/

theorem beBytes_length (k v : Nat) : (beBytes k v).length = k := by
  induction k generalizing v with
  | zero => rfl
  | succ k ih => simp [beBytes, ih]

theorem leBytes_length (k v : Nat) : (leBytes k v).length = k := by
  induction k generalizing v with
  | zero => rfl
  | succ k ih => simp [leBytes, ih]

theorem beBytes_ok (k v : Nat) : okBytes (beBytes k v) := by
  induction k generalizing v with
  | zero => intro b hb; simp [beBytes] at hb
  | succ k ih =>
    intro b hb
    simp only [beBytes, List.mem_append, List.mem_singleton] at hb
    rcases hb with h | h
    · exact ih _ _ h
    · subst h; exact Nat.mod_lt _ (by norm_num)

theorem leBytes_ok (k v : Nat) : okBytes (leBytes k v) := by
  induction k generalizing v with
  | zero => intro b hb; simp [leBytes] at hb
  | succ k ih =>
    intro b hb
    simp only [leBytes, List.mem_cons] at hb
    rcases hb with h | h
    · subst h; exact Nat.mod_lt _ (by norm_num)
    · exact ih _ _ h

theorem okBytes_append {l1 l2 : List Nat} :
    okBytes (l1 ++ l2) ↔ okBytes l1 ∧ okBytes l2 := by
  constructor
  · intro h
    exact ⟨fun b hb => h b (List.mem_append_left _ hb),
           fun b hb => h b (List.mem_append_right _ hb)⟩
  · rintro ⟨h1, h2⟩ b hb
    rcases List.mem_append.mp hb with h | h
    · exact h1 b h
    · exact h2 b h

theorem okBytes_take {l : List Nat} (n : Nat) (h : okBytes l) :
    okBytes (l.take n) :=
  fun b hb => h b (List.mem_of_mem_take hb)

theorem okBytes_drop {l : List Nat} (n : Nat) (h : okBytes l) :
    okBytes (l.drop n) :=
  fun b hb => h b (List.mem_of_mem_drop hb)

theorem okBytes_cons {b : Nat} {l : List Nat} :
    okBytes (b :: l) ↔ b < 256 ∧ okBytes l := by
  constructor
  · intro h
    exact ⟨h b (List.mem_cons_self _ _), fun x hx => h x (List.mem_cons_of_mem _ hx)⟩
  · rintro ⟨hb, hl⟩ x hx
    rcases List.mem_cons.mp hx with h | h
    · subst h; exact hb
    · exact hl x h

theorem beNum_append (l1 l2 : List Nat) :
    beNum (l1 ++ l2) = beNum l1 * 256 ^ l2.length + beNum l2 := by
  induction l2 generalizing l1 with
  | nil => simp [beNum]
  | cons b tl ih =>
    have h1 : l1 ++ b :: tl = (l1 ++ [b]) ++ tl := by simp
    rw [h1, ih (l1 ++ [b])]
    have h2 : beNum (l1 ++ [b]) = beNum l1 * 256 + b := by
      simp [beNum, List.foldl_append]
    have h3 : beNum (b :: tl) = beNum [b] * 256 ^ tl.length + beNum tl := by
      have := ih [b]
      simpa using this
    have h4 : beNum [b] = b := by simp [beNum]
    rw [h2, h3, h4]
    simp only [List.length_cons, pow_succ]
    ring

theorem beNum_cons (b : Nat) (l : List Nat) :
    beNum (b :: l) = b * 256 ^ l.length + beNum l := by
  have := beNum_append [b] l
  simpa [beNum] using this

theorem beNum_lt {l : List Nat} (h : okBytes l) : beNum l < 256 ^ l.length := by
  induction l with
  | nil => simp [beNum]
  | cons b tl ih =>
    rw [beNum_cons]
    have hb : b < 256 := h b (List.mem_cons_self _ _)
    have htl : beNum tl < 256 ^ tl.length :=
      ih (fun x hx => h x (List.mem_cons_of_mem _ hx))
    calc b * 256 ^ tl.length + beNum tl
        < b * 256 ^ tl.length + 256 ^ tl.length := by omega
      _ = (b + 1) * 256 ^ tl.length := by ring
      _ ≤ 256 * 256 ^ tl.length := by
          exact Nat.mul_le_mul_right _ (by omega)
      _ = 256 ^ (tl.length + 1) := by ring
      _ = 256 ^ (b :: tl).length := by simp

theorem mod_mul_256 (v k : Nat) :
    v % (256 ^ k * 256) = v / 256 % 256 ^ k * 256 + v % 256 := by
  rw [Nat.mul_comm]
  have hd : v % (256 * 256 ^ k) / 256 = v / 256 % 256 ^ k :=
    Nat.mod_mul_right_div_self v 256 (256 ^ k)
  have hm : v % (256 * 256 ^ k) % 256 = v % 256 :=
    Nat.mod_mod_of_dvd v ⟨256 ^ k, rfl⟩
  omega

theorem beNum_beBytes (k v : Nat) : beNum (beBytes k v) = v % 256 ^ k := by
  induction k generalizing v with
  | zero => simp [beBytes, beNum, Nat.mod_one]
  | succ k ih =>
    rw [beBytes, beNum_append, ih]
    have h1 : beNum [v % 256] = v % 256 := by simp [beNum]
    rw [h1, pow_succ, mod_mul_256]
    simp

theorem leNum_cons (b : Nat) (l : List Nat) :
    leNum (b :: l) = leNum l * 256 + b := by
  simp [leNum]

theorem leNum_leBytes (k v : Nat) : leNum (leBytes k v) = v % 256 ^ k := by
  induction k generalizing v with
  | zero => simp [leBytes, leNum, Nat.mod_one]
  | succ k ih =>
    rw [leBytes, leNum_cons, ih, pow_succ, mod_mul_256]

theorem leBytes_leNum {l : List Nat} (h : okBytes l) :
    leBytes l.length (leNum l) = l := by
  induction l with
  | nil => rfl
  | cons b tl ih =>
    rw [List.length_cons, leBytes, leNum_cons]
    have hb : b < 256 := h b (List.mem_cons_self _ _)
    have h1 : (leNum tl * 256 + b) % 256 = b := by omega
    have h2 : (leNum tl * 256 + b) / 256 = leNum tl := by omega
    rw [h1, h2, ih (fun x hx => h x (List.mem_cons_of_mem _ hx))]

theorem beBytes_beNum {l : List Nat} (h : okBytes l) :
    beBytes l.length (beNum l) = l := by
  induction l using List.reverseRecOn with
  | nil => rfl
  | append_singleton xs x ih =>
    have hx : x < 256 := h x (by simp)
    have hxs : okBytes xs := fun b hb => h b (List.mem_append_left _ hb)
    have h1 : beNum (xs ++ [x]) = beNum xs * 256 + x := by
      simp [beNum, List.foldl_append]
    have h2 : (xs ++ [x]).length = xs.length + 1 := by simp
    rw [h1, h2, beBytes]
    have h3 : (beNum xs * 256 + x) / 256 = beNum xs := by omega
    have h4 : (beNum xs * 256 + x) % 256 = x := by omega
    rw [h3, h4, ih hxs]

theorem leNum_lt {l : List Nat} (h : okBytes l) : leNum l < 256 ^ l.length := by
  induction l with
  | nil => simp [leNum]
  | cons b tl ih =>
    rw [leNum_cons]
    have hb : b < 256 := h b (List.mem_cons_self _ _)
    have htl : leNum tl < 256 ^ tl.length :=
      ih (fun x hx => h x (List.mem_cons_of_mem _ hx))
    have : (b :: tl).length = tl.length + 1 := by simp
    rw [this, pow_succ]
    nlinarith

theorem wcsBytes_ok (v : Nat) : okBytes (wcsBytes v) := by
  unfold wcsBytes
  split_ifs with h1 h2 h3
  · intro b hb; simp at hb; omega
  · rw [okBytes_cons]; exact ⟨by norm_num, leBytes_ok 2 v⟩
  · rw [okBytes_cons]; exact ⟨by norm_num, leBytes_ok 4 v⟩
  · rw [okBytes_cons]; exact ⟨by norm_num, leBytes_ok 8 v⟩

theorem readCS_of_wcs {v : Nat} (hv : v < 18446744073709551616)
    (rest : List Nat) :
    read_compact_size_bytes (wcsBytes v ++ rest) = some (v, rest) := by
  by_cases h1 : v < 253
  · have hw : wcsBytes v = [v] := by unfold wcsBytes; rw [if_pos h1]
    rw [hw, List.singleton_append]
    simp only [read_compact_size_bytes]
    rw [if_pos h1]
  · by_cases h2 : v < 65536
    · have hw : wcsBytes v = 253 :: leBytes 2 v := by
        unfold wcsBytes; rw [if_neg h1, if_pos h2]
      have htake : (leBytes 2 v ++ rest).take 2 = leBytes 2 v :=
        List.take_left' (leBytes_length 2 v)
      have hdrop : (leBytes 2 v ++ rest).drop 2 = rest :=
        List.drop_left' (leBytes_length 2 v)
      have hval : leNum (leBytes 2 v) = v := by
        rw [leNum_leBytes]; exact Nat.mod_eq_of_lt (by omega)
      have hlen : 2 ≤ (leBytes 2 v ++ rest).length := by
        simp [leBytes_length]
      rw [hw, List.cons_append]
      simp only [read_compact_size_bytes]
      rw [if_neg (by norm_num), if_pos trivial, htake, hval,
        if_pos ⟨hlen, by omega, h2⟩, hdrop]
    · by_cases h3 : v < 4294967296
      · have hw : wcsBytes v = 254 :: leBytes 4 v := by
          unfold wcsBytes; rw [if_neg h1, if_neg h2, if_pos h3]
        have htake : (leBytes 4 v ++ rest).take 4 = leBytes 4 v :=
          List.take_left' (leBytes_length 4 v)
        have hdrop : (leBytes 4 v ++ rest).drop 4 = rest :=
          List.drop_left' (leBytes_length 4 v)
        have hval : leNum (leBytes 4 v) = v := by
          rw [leNum_leBytes]; exact Nat.mod_eq_of_lt (by omega)
        have hlen : 4 ≤ (leBytes 4 v ++ rest).length := by
          simp [leBytes_length]
        rw [hw, List.cons_append]
        simp only [read_compact_size_bytes]
        rw [if_neg (by norm_num), if_neg (by norm_num), if_pos trivial,
          htake, hval, if_pos ⟨hlen, by omega, h3⟩, hdrop]
      · have hw : wcsBytes v = 255 :: leBytes 8 v := by
          unfold wcsBytes; rw [if_neg h1, if_neg h2, if_neg h3]
        have htake : (leBytes 8 v ++ rest).take 8 = leBytes 8 v :=
          List.take_left' (leBytes_length 8 v)
        have hdrop : (leBytes 8 v ++ rest).drop 8 = rest :=
          List.drop_left' (leBytes_length 8 v)
        have hval : leNum (leBytes 8 v) = v := by
          rw [leNum_leBytes]; exact Nat.mod_eq_of_lt (by omega)
        have hlen : 8 ≤ (leBytes 8 v ++ rest).length := by
          simp [leBytes_length]
        rw [hw, List.cons_append]
        simp only [read_compact_size_bytes]
        rw [if_neg (by norm_num), if_neg (by norm_num), if_neg (by norm_num),
          htake, hval, if_pos ⟨hlen, by omega⟩, hdrop]

theorem wcs_of_readCS {l rest : List Nat} {v : Nat} (hok : okBytes l)
    (h : read_compact_size_bytes l = some (v, rest)) :
    wcsBytes v ++ rest = l := by
  match l with
  | [] => exact absurd h (by simp [read_compact_size_bytes])
  | b :: tl =>
    have hb : b < 256 := hok b (List.mem_cons_self _ _)
    have htl : okBytes tl := fun x hx => hok x (List.mem_cons_of_mem _ hx)
    simp only [read_compact_size_bytes] at h
    by_cases h1 : b < 253
    · rw [if_pos h1] at h
      obtain ⟨hv, hr⟩ := Prod.mk.injEq _ _ _ _ ▸ Option.some.inj h
      subst hv; subst hr
      have hw : wcsBytes b = [b] := by unfold wcsBytes; rw [if_pos h1]
      rw [hw, List.singleton_append]
    · rw [if_neg h1] at h
      by_cases hb3 : b = 253
      · rw [if_pos hb3] at h
        split at h
        · next hguard =>
          obtain ⟨hv, hr⟩ := Prod.mk.injEq _ _ _ _ ▸ Option.some.inj h
          obtain ⟨hlen, hlo, hhi⟩ := hguard
          have hw : wcsBytes v = 253 :: leBytes 2 v := by
            unfold wcsBytes; rw [if_neg (by omega), if_pos (by omega)]
          have htk : leBytes 2 v = tl.take 2 := by
            rw [← hv]
            have hltake : (tl.take 2).length = 2 := by
              rw [List.length_take]; omega
            have hres := leBytes_leNum (okBytes_take 2 htl)
            rw [hltake] at hres
            exact hres
          rw [hw, htk, ← hr, hb3, List.cons_append, List.take_append_drop]
        · exact absurd h (by simp)
      · rw [if_neg hb3] at h
        by_cases hb4 : b = 254
        · rw [if_pos hb4] at h
          split at h
          · next hguard =>
            obtain ⟨hv, hr⟩ := Prod.mk.injEq _ _ _ _ ▸ Option.some.inj h
            obtain ⟨hlen, hlo, hhi⟩ := hguard
            have hw : wcsBytes v = 254 :: leBytes 4 v := by
              unfold wcsBytes
              rw [if_neg (by omega), if_neg (by omega), if_pos (by omega)]
            have htk : leBytes 4 v = tl.take 4 := by
              rw [← hv]
              have hltake : (tl.take 4).length = 4 := by
                rw [List.length_take]; omega
              have hres := leBytes_leNum (okBytes_take 4 htl)
              rw [hltake] at hres
              exact hres
            rw [hw, htk, ← hr, hb4, List.cons_append, List.take_append_drop]
          · exact absurd h (by simp)
        · rw [if_neg hb4] at h
          have hb5 : b = 255 := by omega
          split at h
          · next hguard =>
            obtain ⟨hv, hr⟩ := Prod.mk.injEq _ _ _ _ ▸ Option.some.inj h
            obtain ⟨hlen, hlo⟩ := hguard
            have hw : wcsBytes v = 255 :: leBytes 8 v := by
              unfold wcsBytes
              rw [if_neg (by omega), if_neg (by omega), if_neg (by omega)]
            have htk : leBytes 8 v = tl.take 8 := by
              rw [← hv]
              have hltake : (tl.take 8).length = 8 := by
                rw [List.length_take]; omega
              have hres := leBytes_leNum (okBytes_take 8 htl)
              rw [hltake] at hres
              exact hres
            rw [hw, htk, ← hr, hb5, List.cons_append, List.take_append_drop]
          · exact absurd h (by simp)

/-- C3: for every value in the tested set, writing it as a compact size and
reading it back from the stream returns the value (with the remainder of the
stream untouched); writing a negative value is a serialization error; and
reading a compact size from an exhausted stream fails. -/
theorem c3_compact_size_roundtrip :
    (∀ v ∈ [0, 1, 252, 253, 65535, 65536, 4294967295, 4294967296,
        18446744073709551615], ∀ rest : List Nat,
      read_compact_size_bytes (wcsBytes v ++ rest) = some (v, rest)) ∧
    (∀ s : BCDataStream, s.write_compact_size (-1) = .error ()) ∧
    (∀ s : BCDataStream, s.input.length ≤ s.read_cursor →
      s.read_compact_size = .error ()) := by
  refine ⟨?_, ?_, ?_⟩
  · intro v hv rest
    have hv64 : v < 18446744073709551616 := by
      fin_cases hv <;> norm_num
    exact readCS_of_wcs hv64 rest
  · intro s
    rfl
  · intro s h
    unfold BCDataStream.read_compact_size
    rw [List.drop_eq_nil_of_le h]
    rfl

/-- Witness for C3 at the value 253 and a fresh stream. -/
theorem c3_compact_size_roundtrip_witness :
    read_compact_size_bytes (wcsBytes 253 ++ [7]) = some (253, [7]) ∧
    BCDataStream.empty.write_compact_size (-1) = .error () ∧
    BCDataStream.empty.read_compact_size = .error () :=
  ⟨c3_compact_size_roundtrip.1 253 (by norm_num) [7],
   c3_compact_size_roundtrip.2.1 BCDataStream.empty,
   c3_compact_size_roundtrip.2.2 BCDataStream.empty (by decide)⟩

/-- C4 counterexample: at 0xff the code and its tests emit marker 4d with a
two-byte length, not the 4c one-byte form the claim predicts; at 0xffff they
emit marker 4e, not 4d. -/
theorem c4_op_push_counterexample :
    op_push 255 = "4dff00" ∧ op_push_claim 255 = "4cff" ∧
    op_push 255 ≠ op_push_claim 255 ∧
    op_push 65535 = "4effff0000" ∧ op_push_claim 65535 = "4dffff" ∧
    op_push 65535 ≠ op_push_claim 65535 := by
  refine ⟨by decide, by decide, by decide, by decide, by decide, by decide⟩

/-- C4 amended: op_push encodes a single byte for lengths below 0x4c, marker
4c with a one-byte length for lengths from 0x4c below 0xff, marker 4d with a
two-byte little-endian length from 0xff below 0xffff, and marker 4e with a
four-byte little-endian length from 0xffff upward. -/
theorem c4_op_push_amended (n : Nat) :
    (n < 76 → op_push n = int_to_hex n 1) ∧
    (76 ≤ n → n < 255 → op_push n = "4c" ++ int_to_hex n 1) ∧
    (255 ≤ n → n < 65535 → op_push n = "4d" ++ int_to_hex n 2) ∧
    (65535 ≤ n → op_push n = "4e" ++ int_to_hex n 4) := by
  unfold op_push
  refine ⟨?_, ?_, ?_, ?_⟩
  · intro h; rw [if_pos h]
  · intro h1 h2; rw [if_neg (by omega), if_pos h2]
  · intro h1 h2; rw [if_neg (by omega), if_neg (by omega), if_pos h2]
  · intro h1; rw [if_neg (by omega), if_neg (by omega), if_neg (by omega)]

/-- Witness for C4 at concrete lengths in each band (values of the test). -/
theorem c4_op_push_amended_witness :
    op_push 18 = "12" ∧ op_push 254 = "4cfe" ∧ op_push 4660 = "4d3412" ∧
    op_push 65536 = "4e00000100" := by
  refine ⟨?_, ?_, ?_, ?_⟩
  · rw [(c4_op_push_amended 18).1 (by norm_num)]; decide
  · rw [(c4_op_push_amended 254).2.1 (by norm_num) (by norm_num)]; decide
  · rw [(c4_op_push_amended 4660).2.2.1 (by norm_num) (by norm_num)]; decide
  · rw [(c4_op_push_amended 65536).2.2.2 (by norm_num)]; decide

/-- C5 counterexample, straight from test_bytes: with the six foobar bytes
written and three plus two already consumed via earlier reads, the cursor
stands at five with one byte remaining; read_bytes 4 returns that one byte
(ASCII r) and advances the cursor — it does not fail although fewer than four
bytes remain, and the result is not empty. -/
theorem c5_read_bytes_counterexample :
    (BCDataStream.read_bytes ⟨foobarBytes, 5⟩ 4).1 = [114] ∧
    ([114] : List Nat) ≠ [] ∧
    (BCDataStream.read_bytes ⟨foobarBytes, 5⟩ 4).2 = ⟨foobarBytes, 9⟩ := by
  refine ⟨by decide, by decide, by decide⟩

/-- C5 amended: read_bytes never fails; it returns the slice of at most n of
the remaining bytes (so a read past the available data is truncated, and any
read at or past exhaustion returns the empty result) and always advances the
cursor by the requested length. -/
theorem c5_read_bytes_amended (s : BCDataStream) (n : Nat) :
    (s.read_bytes n).1.length = min n (s.input.length - s.read_cursor) ∧
    (s.read_bytes n).2 = ⟨s.input, s.read_cursor + n⟩ ∧
    (s.input.length ≤ s.read_cursor → (s.read_bytes n).1 = []) := by
  refine ⟨?_, rfl, ?_⟩
  · simp [BCDataStream.read_bytes, List.length_take, List.length_drop]
  · intro h
    simp [BCDataStream.read_bytes, List.drop_eq_nil_of_le h]

/-- Witness for C5: a read of one byte at the exhausted cursor returns the
empty result, and a read of three from the start returns three bytes. -/
theorem c5_read_bytes_amended_witness :
    (BCDataStream.read_bytes ⟨foobarBytes, 9⟩ 1).1 = [] ∧
    (BCDataStream.read_bytes ⟨foobarBytes, 0⟩ 3).1.length =
      min 3 (foobarBytes.length - 0) :=
  ⟨(c5_read_bytes_amended ⟨foobarBytes, 9⟩ 1).2.2 (by decide),
   (c5_read_bytes_amended ⟨foobarBytes, 0⟩ 3).1⟩

/-! ## Transaction round-trip lemmas (C1) -/

theorem readChunk_eq {n : Nat} {l c r : List Nat}
    (h : readChunk n l = some (c, r)) : c ++ r = l ∧ c.length = n := by
  unfold readChunk at h
  split at h
  · exact absurd h (by simp)
  · next hlen =>
    obtain ⟨hc, hr⟩ := Prod.mk.injEq _ _ _ _ ▸ Option.some.inj h
    subst hc; subst hr
    exact ⟨List.take_append_drop n l, by rw [List.length_take]; omega⟩

theorem readLE_eq {k : Nat} {l r : List Nat} {v : Nat} (hok : okBytes l)
    (h : readLE k l = some (v, r)) : leBytes k v ++ r = l := by
  unfold readLE at h
  split at h
  · exact absurd h (by simp)
  · next hlen =>
    obtain ⟨hv, hr⟩ := Prod.mk.injEq _ _ _ _ ▸ Option.some.inj h
    subst hr
    have hlt : (l.take k).length = k := by rw [List.length_take]; omega
    have hres := leBytes_leNum (okBytes_take k hok)
    rw [hlt] at hres
    rw [← hv, hres]
    exact List.take_append_drop k l

theorem parse_input_eq {l rest : List Nat} {x : TxIn} (hok : okBytes l)
    (h : parse_input l = some (x, rest)) : serialize_input x ++ rest = l := by
  unfold parse_input at h
  split at h
  · exact absurd h (by simp)
  · next ph l1 h1 =>
    obtain ⟨e1, hl1⟩ := readChunk_eq h1
    have hok1 : okBytes l1 := (okBytes_append.mp (e1 ▸ hok)).2
    split at h
    · exact absurd h (by simp)
    · next pn l2 h2 =>
      have e2 := readLE_eq hok1 h2
      have hok2 : okBytes l2 := (okBytes_append.mp (e2 ▸ hok1)).2
      split at h
      · exact absurd h (by simp)
      · next sl l3 h3 =>
        have e3 := wcs_of_readCS hok2 h3
        have hok3 : okBytes l3 := (okBytes_append.mp (e3 ▸ hok2)).2
        split at h
        · exact absurd h (by simp)
        · next sc l4 h4 =>
          obtain ⟨e4, hl4⟩ := readChunk_eq h4
          have hok4 : okBytes l4 := (okBytes_append.mp (e4 ▸ hok3)).2
          split at h
          · exact absurd h (by simp)
          · next sq l5 h5 =>
            have e5 := readLE_eq hok4 h5
            obtain ⟨hx, hr⟩ := Prod.mk.injEq _ _ _ _ ▸ Option.some.inj h
            subst hr
            rw [← hx]
            unfold serialize_input
            simp only [List.reverse_reverse, hl4]
            simp only [List.append_assoc]
            rw [e5, e4, e3, e2, e1]

theorem parse_output_eq {l rest : List Nat} {x : TxOut} (hok : okBytes l)
    (h : parse_output l = some (x, rest)) : serialize_output x ++ rest = l := by
  unfold parse_output at h
  split at h
  · exact absurd h (by simp)
  · next v l1 h1 =>
    have e1 := readLE_eq hok h1
    have hok1 : okBytes l1 := (okBytes_append.mp (e1 ▸ hok)).2
    split at h
    · exact absurd h (by simp)
    · next sl l2 h2 =>
      have e2 := wcs_of_readCS hok1 h2
      have hok2 : okBytes l2 := (okBytes_append.mp (e2 ▸ hok1)).2
      split at h
      · exact absurd h (by simp)
      · next sc l3 h3 =>
        obtain ⟨e3, hl3⟩ := readChunk_eq h3
        obtain ⟨hx, hr⟩ := Prod.mk.injEq _ _ _ _ ▸ Option.some.inj h
        subst hr
        rw [← hx]
        unfold serialize_output
        simp only [hl3]
        simp only [List.append_assoc]
        rw [e3, e2, e1]

theorem parseMany_eq {α : Type} {p : List Nat → Option (α × List Nat)}
    {ser : α → List Nat}
    (hp : ∀ {l x rest}, okBytes l → p l = some (x, rest) → ser x ++ rest = l) :
    ∀ {n : Nat} {l xs rest}, okBytes l → parseMany p n l = some (xs, rest) →
      xs.flatMap ser ++ rest = l ∧ xs.length = n := by
  intro n
  induction n with
  | zero =>
    intro l xs rest _ h
    unfold parseMany at h
    obtain ⟨hx, hr⟩ := Prod.mk.injEq _ _ _ _ ▸ Option.some.inj h
    subst hx; subst hr
    simp
  | succ n ih =>
    intro l xs rest hok h
    unfold parseMany at h
    split at h
    · exact absurd h (by simp)
    · next x l1 h1 =>
      have e1 := hp hok h1
      have hok1 : okBytes l1 := (okBytes_append.mp (e1 ▸ hok)).2
      split at h
      · exact absurd h (by simp)
      · next xs1 rest1 h2 =>
        obtain ⟨e2, hlen⟩ := ih hok1 h2
        obtain ⟨hx, hr⟩ := Prod.mk.injEq _ _ _ _ ▸ Option.some.inj h
        subst hx; subst hr
        constructor
        · rw [List.flatMap_cons, List.append_assoc, e2, e1]
        · simp [hlen]

theorem serialize_deserialize {B : List Nat} {t : TxParsed} (hok : okBytes B)
    (h : deserialize_tx B = some t) : serialize_tx t = B := by
  unfold deserialize_tx at h
  split at h
  · exact absurd h (by simp)
  · next ver l1 h1 =>
    have e1 := readLE_eq hok h1
    have hok1 : okBytes l1 := (okBytes_append.mp (e1 ▸ hok)).2
    split at h
    · exact absurd h (by simp)
    · next nin l2 h2 =>
      have e2 := wcs_of_readCS hok1 h2
      have hok2 : okBytes l2 := (okBytes_append.mp (e2 ▸ hok1)).2
      split at h
      · exact absurd h (by simp)
      · next ins l3 h3 =>
        obtain ⟨e3, hlen3⟩ := parseMany_eq (fun hk hp => parse_input_eq hk hp) hok2 h3
        have hok3 : okBytes l3 := (okBytes_append.mp (e3 ▸ hok2)).2
        split at h
        · exact absurd h (by simp)
        · next nout l4 h4 =>
          have e4 := wcs_of_readCS hok3 h4
          have hok4 : okBytes l4 := (okBytes_append.mp (e4 ▸ hok3)).2
          split at h
          · exact absurd h (by simp)
          · next outs l5 h5 =>
            obtain ⟨e5, hlen5⟩ := parseMany_eq (fun hk hp => parse_output_eq hk hp) hok4 h5
            have hok5 : okBytes l5 := (okBytes_append.mp (e5 ▸ hok4)).2
            split at h
            · exact absurd h (by simp)
            · next lock l6 h6 =>
              have e6 := readLE_eq hok5 h6
              split at h
              · next hnil =>
                subst hnil
                obtain ht := Option.some.inj h
                subst ht
                unfold serialize_tx
                simp only [hlen3, hlen5]
                calc leBytes 4 ver ++ wcsBytes nin ++ ins.flatMap serialize_input ++
                      wcsBytes nout ++ outs.flatMap serialize_output ++ leBytes 4 lock
                    = leBytes 4 ver ++ (wcsBytes nin ++ (ins.flatMap serialize_input ++
                      (wcsBytes nout ++ (outs.flatMap serialize_output ++
                        (leBytes 4 lock ++ []))))) := by simp [List.append_assoc]
                  _ = B := by rw [e6, e5, e4, e3, e2, e1]
              · exact absurd h (by simp)

/-- C1: every well-formed byte sequence that deserializes as a transaction is
reproduced exactly by serialize, and on the stateful object the first
deserialize returns the snapshot while a second deserialize on the parsed
instance returns None. -/
theorem c1_tx_roundtrip (B : List Nat) (t : TxParsed) (hok : okBytes B)
    (h : deserialize_tx B = some t) :
    serialize_tx t = B ∧
    (Transaction.ofBytes B).deserialize = (some t, ⟨B, some t⟩) ∧
    ((Transaction.ofBytes B).deserialize.2).deserialize = (none, ⟨B, some t⟩) ∧
    (Transaction.ofBytes B).serialize = B := by
  have hd1 : (Transaction.ofBytes B).deserialize = (some t, ⟨B, some t⟩) := by
    unfold Transaction.ofBytes Transaction.deserialize
    rw [h]
  refine ⟨serialize_deserialize hok h, hd1, ?_, ?_⟩
  · rw [hd1]
    rfl
  · unfold Transaction.ofBytes Transaction.serialize
    rw [h]
    exact serialize_deserialize hok h

set_option maxRecDepth 4000 in
/-- Witness for C1 on the version-two transaction blob of the test suite. -/
theorem c1_tx_roundtrip_witness :
    (deserialize_tx v2blob).isSome ∧
    (deserialize_tx v2blob).map serialize_tx = some v2blob ∧
    ((Transaction.ofBytes v2blob).deserialize.2).deserialize.1 = none := by
  have hok : okBytes v2blob := by decide
  have hsome : (deserialize_tx v2blob).isSome := by decide
  refine ⟨hsome, ?_, ?_⟩
  · obtain ⟨t, ht⟩ := Option.isSome_iff_exists.mp hsome
    rw [ht]
    exact congrArg some ((c1_tx_roundtrip v2blob t hok ht).1)
  · obtain ⟨t, ht⟩ := Option.isSome_iff_exists.mp hsome
    rw [(c1_tx_roundtrip v2blob t hok ht).2.2.1]

/-! ## BIP32 derivation consistency (C2) -/

theorem ckd_consistent {k : Nat} {c : List Nat} {i : Nat}
    (hi : i < BIP32_PRIME) :
    CKD_pub (pointOf k) c i =
      some (pointOf (CKD_priv k c i).1, (CKD_priv k c i).2) := by
  unfold CKD_pub CKD_priv
  rw [if_neg (by omega), if_neg (by omega)]
  dsimp only
  congr 1
  have h1 : pointOf ((beNum ((hmacSha512 c (serPoint (pointOf k) ++ beBytes 4 i)).take 32) + k) % secpOrder)
      = (beNum ((hmacSha512 c (serPoint (pointOf k) ++ beBytes 4 i)).take 32) + k) % secpOrder := by
    unfold pointOf
    exact Nat.mod_mod_of_dvd _ dvd_rfl
  rw [h1]
  unfold pointOf
  rw [Nat.add_mod_mod]

theorem steps_consistent :
    ∀ {segs : List Nat} {k : Nat} {c : List Nat} {d : Nat},
    segs ≠ [] → (∀ i ∈ segs, i < BIP32_PRIME) →
    pubSteps (pointOf k) c d segs =
      some ⟨pointOf (privSteps k c d segs).k, (privSteps k c d segs).c,
        (privSteps k c d segs).depth, pointOf (privSteps k c d segs).parent,
        (privSteps k c d segs).lastIndex⟩ := by
  intro segs
  induction segs with
  | nil => intro k c d hne _; exact absurd rfl hne
  | cons i rest ih =>
    intro k c d _ hall
    have hi : i < BIP32_PRIME := hall i (List.mem_cons_self _ _)
    cases rest with
    | nil =>
      simp only [privSteps, pubSteps, ckd_consistent hi]
    | cons j rest2 =>
      have hall2 : ∀ m ∈ j :: rest2, m < BIP32_PRIME :=
        fun m hm => hall m (List.mem_cons_of_mem _ hm)
      simp only [privSteps, pubSteps, ckd_consistent hi]
      exact ih (by simp) hall2

theorem pubSteps_hardened :
    ∀ {segs : List Nat} {K : Nat} {c : List Nat} {d : Nat},
    (∃ i ∈ segs, BIP32_PRIME ≤ i) → pubSteps K c d segs = none := by
  intro segs
  induction segs with
  | nil => intro K c d h; obtain ⟨i, hi, _⟩ := h; exact absurd hi (by simp)
  | cons i rest ih =>
    intro K c d h
    by_cases hi : BIP32_PRIME ≤ i
    · have hnone : CKD_pub K c i = none := by unfold CKD_pub; rw [if_pos hi]
      simp only [pubSteps, hnone]
    · obtain ⟨m, hm, hwm⟩ := h
      have hmrest : m ∈ rest := by
        rcases List.mem_cons.mp hm with he | hr
        · exact absurd (he ▸ hwm) hi
        · exact hr
      have hsome : (CKD_pub K c i).isSome := by
        unfold CKD_pub; rw [if_neg hi]; rfl
      obtain ⟨Kc, hKc⟩ := Option.isSome_iff_exists.mp hsome
      cases rest with
      | nil => exact absurd hmrest (by simp)
      | cons j rest2 =>
        simp only [pubSteps, hKc]
        exact ih ⟨m, hmrest, hwm⟩

/-- C2: along every non-empty derivation path without a hardened segment,
public derivation from the public projection of the parent yields exactly the
encoded extended public key that private derivation (which also returns the
stripped public serialization) produces; and public derivation fails whenever
some segment of the path is hardened. -/
theorem c2_bip32_pub_priv_consistency (x : XKeyPrv) (segs : List Nat)
    (hne : segs ≠ []) :
    ((∀ i ∈ segs, i < BIP32_PRIME) →
      bip32_public_derivation (xpubOfXprv x) segs =
        (bip32_private_derivation x segs).map Prod.snd) ∧
    ((∃ i ∈ segs, BIP32_PRIME ≤ i) →
      bip32_public_derivation (xpubOfXprv x) segs = none) := by
  constructor
  · intro hall
    cases segs with
    | nil => exact absurd rfl hne
    | cons i rest =>
      unfold bip32_public_derivation bip32_private_derivation xpubOfXprv
      rw [steps_consistent (by simp) hall]
      rfl
  · intro hhard
    unfold bip32_public_derivation xpubOfXprv
    rw [pubSteps_hardened hhard]

/-- Witness for C2: master key of a concrete seed, the non-hardened path of
two zero and one indices, and a hardened one-segment path. -/
theorem c2_bip32_pub_priv_consistency_witness :
    (bip32_public_derivation
        (xpubOfXprv (bip32_root_data 0 [0, 1, 2, 3, 4, 5, 6, 7])) [0, 1] =
      (bip32_private_derivation (bip32_root_data 0 [0, 1, 2, 3, 4, 5, 6, 7])
        [0, 1]).map Prod.snd) ∧
    bip32_public_derivation
      (xpubOfXprv (bip32_root_data 0 [0, 1, 2, 3, 4, 5, 6, 7]))
      [2147483648] = none :=
  ⟨(c2_bip32_pub_priv_consistency _ [0, 1] (by decide)).1
      (by intro i hi; fin_cases hi <;> decide),
   (c2_bip32_pub_priv_consistency _ [2147483648] (by decide)).2
      ⟨2147483648, by decide, by decide⟩⟩

/-! ## Message signing and verification lemmas (C6) -/

theorem recover_of_sign {x a n : Nat} (hn : 0 < n) (hx : x < n) :
    ((x + a) % n + (n - a % n)) % n = x := by
  have hmod := Nat.div_add_mod a n
  have hb : a % n < n := Nat.mod_lt _ hn
  have harg : x + a + (n - a % n) = x + n * (a / n) + n := by omega
  calc ((x + a) % n + (n - a % n)) % n
      = (x + a + (n - a % n)) % n := Nat.mod_add_mod _ _ _
    _ = (x + n * (a / n) + n) % n := by rw [harg]
    _ = (x + n * (a / n)) % n := Nat.add_mod_right _ _
    _ = x % n := Nat.add_mul_mod_self_left _ _ _
    _ = x := Nat.mod_eq_of_lt hx

theorem verify_compact {addr : String} {recid r s : Nat} {m : List Nat}
    (h27 : 27 ≤ recid) (h35 : recid < 35)
    (hr : r < 2 ^ 256) (hs : s < 2 ^ 256) :
    verify_message addr (recid :: beBytes 32 r ++ beBytes 32 s) m =
      decide (addr = addrOfPoint (recoverPoint r s (hashMsg m))
        (31 ≤ recid)) := by
  unfold verify_message
  have hlen : (recid :: beBytes 32 r ++ beBytes 32 s).length = 65 := by
    simp [beBytes_length]
  rw [if_pos hlen]
  have hhead : (recid :: beBytes 32 r ++ beBytes 32 s).headD 0 = recid := rfl
  rw [hhead, if_pos ⟨h27, h35⟩]
  have h1 : ((recid :: beBytes 32 r ++ beBytes 32 s).drop 1).take 32 =
      beBytes 32 r := by
    show List.take 32 (List.drop (0 + 1) (recid :: (beBytes 32 r ++ beBytes 32 s))) =
      beBytes 32 r
    rw [List.drop_succ_cons, List.drop_zero,
      List.take_left' (beBytes_length 32 r)]
  have h2 : (recid :: beBytes 32 r ++ beBytes 32 s).drop 33 = beBytes 32 s := by
    show List.drop (32 + 1) (recid :: (beBytes 32 r ++ beBytes 32 s)) =
      beBytes 32 s
    rw [List.drop_succ_cons, List.drop_left' (beBytes_length 32 r)]
  rw [h1, h2, beNum_beBytes, beNum_beBytes]
  have hpow : (256 : Nat) ^ 32 = 2 ^ 256 := by norm_num
  rw [hpow, Nat.mod_eq_of_lt hr, Nat.mod_eq_of_lt hs]

set_option maxRecDepth 10000 in
set_option maxHeartbeats 4000000 in
theorem c6_sig_eq : sign_message 7777 [1, 2, 3] true = c6SigBytes := by
  decide

set_option maxRecDepth 10000 in
set_option maxHeartbeats 4000000 in
theorem c6_addr_a_eq : addrOfPoint (pointOf 7777) true = c6AddrA := by
  decide

set_option maxRecDepth 10000 in
set_option maxHeartbeats 4000000 in
theorem c6_addr_b_eq : addrOfPoint (pointOf 8888) true = c6AddrB := by
  decide

set_option maxRecDepth 10000 in
set_option maxHeartbeats 4000000 in
theorem c6_rej_message : verify_message c6AddrA c6SigBytes [9, 9] = false := by
  decide

set_option maxRecDepth 10000 in
set_option maxHeartbeats 4000000 in
theorem c6_rej_len :
    verify_message c6AddrA [119, 114, 111, 110, 103] [1, 2, 3] = false := by
  decide

set_option maxRecDepth 10000 in
set_option maxHeartbeats 4000000 in
theorem c6_rej_addr :
    verify_message c6AddrB c6SigBytes [1, 2, 3] = false := by
  decide

set_option maxRecDepth 10000 in
set_option maxHeartbeats 4000000 in
theorem c6_rej_recid :
    verify_message c6AddrA (28 :: c6SigBytes.drop 1) [1, 2, 3] = false := by
  decide

set_option maxRecDepth 10000 in
set_option maxHeartbeats 4000000 in
/-- C6: a genuine signature verifies under the address derived from the
signing key under either compression convention; a signature that is not 65
bytes is rejected with false (not an exception); a verification can only
succeed when the supplied address is exactly the address derived from the
recovered public point under the compression flag of the recovery byte (so a
different address fails); and the tested rejection scenarios — a different
message, a malformed five-byte signature, a different address, and a
corrupted recovery byte — all return false on concrete vectors. -/
theorem c6_verify_message :
    (∀ (sk : Nat) (m : List Nat) (comp : Bool), sk < secpOrder →
      verify_message (addrOfPoint (pointOf sk) comp) (sign_message sk m comp)
        m = true) ∧
    (∀ (addr : String) (sig m : List Nat), sig.length ≠ 65 →
      verify_message addr sig m = false) ∧
    (∀ (addr : String) (sig m : List Nat), verify_message addr sig m = true →
      addr = addrOfPoint (recoverPoint (beNum ((sig.drop 1).take 32))
        (beNum (sig.drop 33)) (hashMsg m)) (decide (31 ≤ sig.headD 0))) ∧
    verify_message (addrOfPoint (pointOf 7777) true)
      (sign_message 7777 [1, 2, 3] true) [9, 9] = false ∧
    verify_message (addrOfPoint (pointOf 7777) true)
      [119, 114, 111, 110, 103] [1, 2, 3] = false ∧
    verify_message (addrOfPoint (pointOf 8888) true)
      (sign_message 7777 [1, 2, 3] true) [1, 2, 3] = false ∧
    verify_message (addrOfPoint (pointOf 7777) true)
      (28 :: (sign_message 7777 [1, 2, 3] true).drop 1) [1, 2, 3] = false := by
  have hn : 0 < secpOrder := by decide
  have hlt : secpOrder < 2 ^ 256 := by decide
  refine ⟨?_, ?_, ?_,
    by rw [c6_addr_a_eq, c6_sig_eq]; exact c6_rej_message,
    by rw [c6_addr_a_eq]; exact c6_rej_len,
    by rw [c6_addr_b_eq, c6_sig_eq]; exact c6_rej_addr,
    by rw [c6_addr_a_eq, c6_sig_eq]; exact c6_rej_recid⟩
  · intro sk m comp hsk
    have hrec : recoverPoint
        (beNum (dsha256 (beBytes 32 sk ++ dsha256 (msg_magic m))) % secpOrder)
        ((sk + hashMsg m *
          (beNum (dsha256 (beBytes 32 sk ++ dsha256 (msg_magic m))) % secpOrder)) % secpOrder)
        (hashMsg m) = sk := by
      unfold recoverPoint
      exact recover_of_sign hn (by omega)
    have hpt : pointOf sk = sk := Nat.mod_eq_of_lt (by omega)
    cases comp
    · have hsig : sign_message sk m false =
          27 :: beBytes 32 (beNum (dsha256 (beBytes 32 sk ++ dsha256 (msg_magic m))) % secpOrder) ++
            beBytes 32 ((sk + hashMsg m *
              (beNum (dsha256 (beBytes 32 sk ++ dsha256 (msg_magic m))) % secpOrder)) % secpOrder) := by
        unfold sign_message
        norm_num
      rw [hsig, verify_compact (by norm_num) (by norm_num)
        (lt_trans (Nat.mod_lt _ hn) hlt) (lt_trans (Nat.mod_lt _ hn) hlt)]
      simp only [hrec, hpt]
      norm_num
    · have hsig : sign_message sk m true =
          31 :: beBytes 32 (beNum (dsha256 (beBytes 32 sk ++ dsha256 (msg_magic m))) % secpOrder) ++
            beBytes 32 ((sk + hashMsg m *
              (beNum (dsha256 (beBytes 32 sk ++ dsha256 (msg_magic m))) % secpOrder)) % secpOrder) := by
        unfold sign_message
        norm_num
      rw [hsig, verify_compact (by norm_num) (by norm_num)
        (lt_trans (Nat.mod_lt _ hn) hlt) (lt_trans (Nat.mod_lt _ hn) hlt)]
      simp only [hrec, hpt]
      norm_num
  · intro addr sig m h
    unfold verify_message
    rw [if_neg h]
  · intro addr sig m h
    unfold verify_message at h
    by_cases hl : sig.length = 65
    · rw [if_pos hl] at h
      dsimp only at h
      by_cases hrange : 27 ≤ sig.headD 0 ∧ sig.headD 0 < 35
      · rw [if_pos hrange] at h
        exact of_decide_eq_true h
      · rw [if_neg hrange] at h
        exact absurd h (by simp)
    · rw [if_neg hl] at h
      exact absurd h (by simp)

set_option maxRecDepth 10000 in
set_option maxHeartbeats 4000000 in
/-- Witness for C6: the completeness conjunct at a concrete key and message,
plus the malformed-length conjunct at the five-byte signature. -/
theorem c6_verify_message_witness :
    verify_message (addrOfPoint (pointOf 7777) true)
      (sign_message 7777 [1, 2, 3] true) [1, 2, 3] = true ∧
    verify_message "anything" [119, 114, 111, 110, 103] [1, 2] = false :=
  ⟨c6_verify_message.1 7777 [1, 2, 3] true (by decide),
   c6_verify_message.2.1 "anything" [119, 114, 111, 110, 103] [1, 2]
     (by decide)⟩

/-! ## Classification predicates (C9) -/

/-- C9: every classification predicate is a total boolean function (exceptions
are impossible by construction), and each returns false on unparseable input:
a failed 25-byte base-58 decode for addresses, a failed minikey check plus a
failed Base58Check decode for private keys and the compression flag, a
too-short text for minikeys, a failed Base58Check decode for extended keys,
and a missing master marker for derivation paths. -/
theorem c9_classification_total :
    (∀ s : String, base_decode s 25 = none → is_address s = false) ∧
    (∀ s : String, is_minikey s = false → DecodeBase58Check s = none →
      is_private_key s = false) ∧
    (∀ s : String, is_minikey s = false → DecodeBase58Check s = none →
      is_compressed s = false) ∧
    (∀ s : String, s.length < 20 → is_minikey s = false) ∧
    (∀ s : String, DecodeBase58Check s = none → is_xpub s = false) ∧
    (∀ s : String, DecodeBase58Check s = none → is_xprv s = false) ∧
    (∀ s : String, charsPrefix "m/".data s.data = false →
      is_bip32_derivation s = false) := by
  refine ⟨?_, ?_, ?_, ?_, ?_, ?_, ?_⟩
  · intro s h
    simp [is_address, is_b58_address, b58_address_to_hash160, h]
  · intro s h1 h2
    simp [is_private_key, deserialize_privkey, h1, h2, Except.isOk, Except.toBool]
  · intro s h1 h2
    simp [is_compressed, deserialize_privkey, h1, h2]
  · intro s h
    unfold is_minikey
    rw [decide_eq_false (by omega)]
    simp
  · intro s h
    simp [is_xpub, deserialize_xkey, h, Except.isOk, Except.toBool]
  · intro s h
    simp [is_xprv, deserialize_xkey, h, Except.isOk, Except.toBool]
  · intro s h
    unfold is_bip32_derivation
    rw [h]
    simp

set_option maxRecDepth 10000 in
set_option maxHeartbeats 4000000 in
/-- Witness for C9 on the unparseable inputs of the test suite. -/
theorem c9_classification_total_witness :
    is_address "not an address" = false ∧
    is_private_key "not a privkey" = false ∧
    is_compressed "garbage" = false ∧
    is_minikey "ShortSeed" = false ∧
    is_xpub "xpub1nval1d" = false ∧
    is_xprv "xprv1nval1d" = false ∧
    is_bip32_derivation "mmmmmm" = false :=
  ⟨c9_classification_total.1 "not an address" (by decide),
   c9_classification_total.2.1 "not a privkey" (by decide) (by decide),
   c9_classification_total.2.2.1 "garbage" (by decide) (by decide),
   c9_classification_total.2.2.2.1 "ShortSeed" (by decide),
   c9_classification_total.2.2.2.2.1 "xpub1nval1d" (by decide),
   c9_classification_total.2.2.2.2.2.1 "xprv1nval1d" (by decide),
   c9_classification_total.2.2.2.2.2.2 "mmmmmm" (by decide)⟩

/-! ## Seed classification (C8, C10) -/

set_option maxRecDepth 10000 in
set_option maxHeartbeats 4000000 in
/-- C8 counterexample: a twelve-word phrase over the wordlist whose decoding
is 36 hex characters (every group exceeds eight digits), hence 18 bytes — not
the corresponding 16 — yet the code classifies it old (the wordlist branch
checks only word membership and the count 12 or 24, as its own test suite
documents on the hurry-idiot seed, which maps to 33 hex chars and still
classifies old). -/
theorem c8_old_seed_counterexample :
    is_old_seed oldSeedOverflowPhrase = true ∧
    old_seed_claim oldSeedOverflowPhrase = false ∧
    seed_type oldSeedOverflowPhrase = "old" := by
  refine ⟨by decide, by decide, by decide⟩

theorem decideOrSplit (p q : Prop) [Decidable p] [Decidable q] :
    decide (p ∨ q) = (decide p || decide q) := by
  by_cases hp : p <;> by_cases hq : q <;> simp [hp, hq]

/-- C8 amended: the legacy classification accepts a phrase exactly when the
normalized text hex-decodes to 16 or 32 bytes, or every looked-up word is in
the wordlist and the word count is 12 or 24 — the length of the decoded
string itself is not validated; any phrase outside these conditions is not
old, and seed_type does not return old for it. -/
theorem c8_old_seed_amended (s : String) :
    is_old_seed s = old_seed_amended s ∧
    (old_seed_amended s = false → seed_type s ≠ "old") := by
  have heq : is_old_seed s = old_seed_amended s := by
    unfold is_old_seed old_seed_amended
    simp only [decideOrSplit]
  refine ⟨heq, ?_⟩
  intro h
  unfold seed_type
  rw [heq, h]
  simp only [Bool.false_eq_true, if_false]
  split
  · decide
  · decide

set_option maxRecDepth 10000 in
set_option maxHeartbeats 4000000 in
/-- Witness for C8 at a phrase that is neither hex nor on the wordlist. -/
theorem c8_old_seed_amended_witness :
    is_old_seed "not a seed" = old_seed_amended "not a seed" ∧
    seed_type "not a seed" ≠ "old" :=
  ⟨(c8_old_seed_amended "not a seed").1,
   (c8_old_seed_amended "not a seed").2 (by decide)⟩

set_option maxRecDepth 10000 in
set_option maxHeartbeats 4000000 in
theorem c10_digest_both : newSeedDigestOK bothOldAndNewSeed := by
  decide

set_option maxRecDepth 10000 in
set_option maxHeartbeats 4000000 in
theorem c10_digest_x8 : newSeedDigestOK "x8" := by
  decide

set_option maxRecDepth 10000 in
set_option maxHeartbeats 4000000 in
theorem c10_new_x8 : is_new_seed "x8" = true := by
  decide

set_option maxRecDepth 10000 in
set_option maxHeartbeats 4000000 in
theorem c10_old_x8 : is_old_seed "x8" = false := by
  decide

set_option maxRecDepth 10000 in
set_option maxHeartbeats 4000000 in
theorem c10_type_x8 : seed_type "x8" = "standard" := by
  decide

set_option maxRecDepth 10000 in
set_option maxHeartbeats 4000000 in
/-- C10 counterexample: a sixteen-byte hex phrase whose seed-version digest
begins with the standard prefix nevertheless classifies old, because the
old-seed rule is checked first; seed_type returns old, not standard. -/
theorem c10_standard_seed_counterexample :
    newSeedDigestOK bothOldAndNewSeed ∧
    seed_type bothOldAndNewSeed = "old" ∧
    ("old" : String) ≠ "standard" := ⟨c10_digest_both, by decide, by decide⟩

set_option maxRecDepth 10000 in
set_option maxHeartbeats 4000000 in
/-- C10 amended: any text whose normalized seed-version digest begins with
the configured prefix satisfies is_new_seed — there is no wordlist or length
requirement — and seed_type returns standard for every such text that is not
also classified old; the two-character non-wordlist string x8 is such a
text. -/
theorem c10_standard_seed_amended :
    (∀ x : String, newSeedDigestOK x → is_new_seed x = true) ∧
    (∀ x : String, newSeedDigestOK x → is_old_seed x = false →
      seed_type x = "standard") ∧
    is_new_seed "x8" = true ∧ is_old_seed "x8" = false ∧
    seed_type "x8" = "standard" := by
  refine ⟨?_, ?_, c10_new_x8, c10_old_x8, c10_type_x8⟩
  · intro x h
    exact h
  · intro x h hold
    unfold seed_type
    rw [hold]
    simp only [Bool.false_eq_true, if_false]
    rw [show is_new_seed x = true from h]
    simp

set_option maxRecDepth 10000 in
set_option maxHeartbeats 4000000 in
/-- Witness for C10 applying the amended theorem at the x8 phrase. -/
theorem c10_standard_seed_amended_witness :
    is_new_seed "x8" = true ∧ seed_type "x8" = "standard" :=
  ⟨c10_standard_seed_amended.1 "x8" c10_digest_x8,
   c10_standard_seed_amended.2.1 "x8" c10_digest_x8 c10_old_x8⟩

/-! ## Base64 round trip (C7) -/

theorem b64charVal_digit : ∀ v, v < 64 → b64charVal (b64digit v) = some v := by
  decide

theorem b64digit_ne_pad : ∀ v, v < 64 → ¬ b64digit v = b64pad := by
  decide

theorem base64_roundtrip : ∀ (l : List Nat), okBytes l →
    base64Decode (base64Encode l) = some l
  | [], _ => rfl
  | [a], h => by
    have ha : a < 256 := h a (by simp)
    have h0 : a / 4 < 64 := by omega
    have h1 : a % 4 * 16 < 64 := by omega
    simp only [base64Encode, base64Decode, b64charVal_digit _ h0,
      b64charVal_digit _ h1]
    have hz : a % 4 * 16 % 16 = 0 := by omega
    have e1 : a / 4 * 4 + a % 4 = a := by omega
    simp [hz, e1]
  | [a, b], h => by
    have ha : a < 256 := h a (by simp)
    have hb : b < 256 := h b (by simp)
    have h0 : a / 4 < 64 := by omega
    have h1 : a % 4 * 16 + b / 16 < 64 := by omega
    have h2 : b % 16 * 4 < 64 := by omega
    simp only [base64Encode, base64Decode, b64charVal_digit _ h0,
      b64charVal_digit _ h1, b64charVal_digit _ h2]
    have hz : b % 16 * 4 % 4 = 0 := by omega
    have e1 : (a / 4) * 4 + (a % 4 * 16 + b / 16) / 16 = a := by omega
    have e2 : (a % 4 * 16 + b / 16) % 16 * 16 + b % 16 = b := by omega
    simp [hz, e1, e2, b64digit_ne_pad _ h2]
  | a :: b :: c :: d :: rest, h => by
    have ha : a < 256 := h a (by simp)
    have hb : b < 256 := h b (by simp)
    have hc : c < 256 := h c (by simp)
    have h0 : a / 4 < 64 := by omega
    have h1 : a % 4 * 16 + b / 16 < 64 := by omega
    have h2 : b % 16 * 4 + c / 64 < 64 := by omega
    have h3 : c % 64 < 64 := by omega
    have hrest : okBytes (d :: rest) := fun x hx => h x (by simp [hx])
    have ih := base64_roundtrip (d :: rest) hrest
    simp only [base64Encode, base64Decode, b64charVal_digit _ h0,
      b64charVal_digit _ h1, b64charVal_digit _ h2, b64charVal_digit _ h3]
    rw [if_neg (b64digit_ne_pad _ h2), if_neg (b64digit_ne_pad _ h3)]
    rw [show base64Decode (base64Encode (d :: rest)) = some (d :: rest) from ih]
    simp only [Option.map]
    have e1 : a / 4 * 4 + (a % 4 * 16 + b / 16) / 16 = a := by omega
    have e2 : (a % 4 * 16 + b / 16) % 16 * 16 + (b % 16 * 4 + c / 64) / 4 = b := by
      omega
    have e3 : (b % 16 * 4 + c / 64) % 4 * 64 + c % 64 = c := by omega
    rw [e1, e2, e3]
  | [a, b, c], h => by
    have ha : a < 256 := h a (by simp)
    have hb : b < 256 := h b (by simp)
    have hc : c < 256 := h c (by simp)
    have h0 : a / 4 < 64 := by omega
    have h1 : a % 4 * 16 + b / 16 < 64 := by omega
    have h2 : b % 16 * 4 + c / 64 < 64 := by omega
    have h3 : c % 64 < 64 := by omega
    simp only [base64Encode, base64Decode, b64charVal_digit _ h0,
      b64charVal_digit _ h1, b64charVal_digit _ h2, b64charVal_digit _ h3]
    rw [if_neg (b64digit_ne_pad _ h2), if_neg (b64digit_ne_pad _ h3)]
    simp only [base64Decode, Option.map]
    have e1 : a / 4 * 4 + (a % 4 * 16 + b / 16) / 16 = a := by omega
    have e2 : (a % 4 * 16 + b / 16) % 16 * 16 + (b % 16 * 4 + c / 64) / 4 = b := by
      omega
    have e3 : (b % 16 * 4 + c / 64) % 4 * 64 + c % 64 = c := by omega
    rw [e1, e2, e3]

/-! ## UTF-8 round trip (C7) -/

theorem utf8EncodeChar_ok {c : Nat} (h : c < 1114112) :
    okBytes (utf8EncodeChar c) := by
  unfold utf8EncodeChar
  split_ifs with h1 h2 h3 <;> intro b hb <;> simp only [List.mem_cons,
    List.mem_singleton, List.not_mem_nil, or_false] at hb
  · omega
  · rcases hb with hb | hb <;> omega
  · rcases hb with hb | hb | hb <;> omega
  · rcases hb with hb | hb | hb | hb <;> omega

theorem utf8EncodeChar_ne_nil (c : Nat) : utf8EncodeChar c ≠ [] := by
  unfold utf8EncodeChar
  split_ifs <;> simp

theorem utf8DecodeChar_encode {c : Nat} (h : c < 1114112)
    (hs : c < 55296 ∨ 57344 ≤ c) (rest : List Nat) :
    utf8DecodeChar (utf8EncodeChar c ++ rest) = some (c, rest) := by
  unfold utf8EncodeChar
  by_cases h1 : c < 128
  · rw [if_pos h1]
    show utf8DecodeChar (c :: rest) = some (c, rest)
    simp only [utf8DecodeChar]
    rw [if_pos h1]
  · rw [if_neg h1]
    by_cases h2 : c < 2048
    · rw [if_pos h2]
      show utf8DecodeChar ((192 + c / 64) :: (128 + c % 64) :: rest) =
        some (c, rest)
      simp only [utf8DecodeChar]
      rw [if_neg (by omega), if_neg (by omega), if_pos (by omega),
        if_pos (by omega)]
      have e1 : (192 + c / 64 - 192) * 64 + (128 + c % 64 - 128) = c := by
        omega
      rw [e1, if_pos (by omega)]
    · rw [if_neg h2]
      by_cases h3 : c < 65536
      · rw [if_pos h3]
        show utf8DecodeChar ((224 + c / 4096) :: (128 + c / 64 % 64) ::
          (128 + c % 64) :: rest) = some (c, rest)
        simp only [utf8DecodeChar]
        rw [if_neg (by omega), if_neg (by omega), if_neg (by omega),
          if_pos (by omega), if_pos (by omega)]
        have e1 : (224 + c / 4096 - 224) * 4096 + (128 + c / 64 % 64 - 128) *
            64 + (128 + c % 64 - 128) = c := by omega
        rw [e1, if_pos ⟨by omega, hs⟩]
      · rw [if_neg h3]
        show utf8DecodeChar ((240 + c / 262144) :: (128 + c / 4096 % 64) ::
          (128 + c / 64 % 64) :: (128 + c % 64) :: rest) = some (c, rest)
        simp only [utf8DecodeChar]
        rw [if_neg (by omega), if_neg (by omega), if_neg (by omega),
          if_neg (by omega), if_pos (by omega), if_pos (by omega)]
        have e1 : (240 + c / 262144 - 240) * 262144 +
            (128 + c / 4096 % 64 - 128) * 4096 +
            (128 + c / 64 % 64 - 128) * 64 + (128 + c % 64 - 128) = c := by
          omega
        rw [e1, if_pos ⟨by omega, h⟩]

theorem char_toNat_lt (ch : Char) : ch.toNat < 1114112 := by
  have hv := ch.valid
  rcases hv with h | h
  · have : ch.toNat < 55296 := h
    omega
  · exact h.2

theorem char_toNat_not_surrogate (ch : Char) :
    ch.toNat < 55296 ∨ 57344 ≤ ch.toNat := by
  have hv := ch.valid
  rcases hv with h | h
  · exact Or.inl h
  · exact Or.inr h.1

theorem utf8DecodeAux_encode :
    ∀ (cs : List Char) (fuel : Nat),
      (cs.flatMap (fun ch => utf8EncodeChar ch.toNat)).length ≤ fuel →
      utf8DecodeAux fuel (cs.flatMap (fun ch => utf8EncodeChar ch.toNat)) =
        some cs := by
  intro cs
  induction cs with
  | nil =>
    intro fuel _
    cases fuel <;> simp [utf8DecodeAux]
  | cons ch cs ih =>
    intro fuel hf
    have hne : utf8EncodeChar ch.toNat ≠ [] := utf8EncodeChar_ne_nil _
    obtain ⟨e0, etail, henc⟩ := List.exists_cons_of_ne_nil hne
    have hlenpos : 1 ≤ (utf8EncodeChar ch.toNat).length := by
      rw [henc]; simp
    simp only [List.flatMap_cons] at hf ⊢
    cases fuel with
    | zero =>
      exfalso
      rw [List.length_append] at hf
      omega
    | succ fuel =>
      rw [henc, List.cons_append]
      simp only [utf8DecodeAux]
      have hdec : utf8DecodeChar ((e0 :: etail) ++
          cs.flatMap (fun ch => utf8EncodeChar ch.toNat)) =
          some (ch.toNat, cs.flatMap (fun ch => utf8EncodeChar ch.toNat)) := by
        rw [← henc]
        exact utf8DecodeChar_encode (char_toNat_lt ch)
          (char_toNat_not_surrogate ch) _
      rw [List.cons_append] at hdec
      rw [hdec]
      have hrest : (cs.flatMap (fun ch => utf8EncodeChar ch.toNat)).length ≤
          fuel := by
        rw [List.length_append] at hf
        omega
      show Option.map (fun l => Char.ofNat ch.toNat :: l)
        (utf8DecodeAux fuel (cs.flatMap (fun ch => utf8EncodeChar ch.toNat))) =
          some (ch :: cs)
      rw [ih fuel hrest]
      simp [Char.ofNat_toNat]

theorem utf8_roundtrip (s : String) : utf8Decode (utf8Encode s) = some s := by
  unfold utf8Decode utf8Encode
  rw [utf8DecodeAux_encode s.data _ (le_refl _)]
  rfl

/-! ## Modelled cipher round trip (C7) -/

theorem xorBytes_length (a b : List Nat) :
    (xorBytes a b).length = min a.length b.length := by
  simp [xorBytes]

theorem xorBytes_ok : ∀ {a b : List Nat}, okBytes a → okBytes b →
    okBytes (xorBytes a b)
  | [], _, _, _ => by intro x hx; simp [xorBytes] at hx
  | _ :: _, [], _, _ => by intro x hx; simp [xorBytes] at hx
  | a :: as, b :: bs, ha, hb => by
    rw [show xorBytes (a :: as) (b :: bs) = (a ^^^ b) :: xorBytes as bs from rfl,
      okBytes_cons]
    constructor
    · have h1 : a < 2 ^ 8 := by
        have := ha a (by simp)
        omega
      have h2 : b < 2 ^ 8 := by
        have := hb b (by simp)
        omega
      have := Nat.xor_lt_two_pow h1 h2
      omega
    · exact xorBytes_ok (fun x hx => ha x (by simp [hx]))
        (fun x hx => hb x (by simp [hx]))

theorem xorBytes_cancel : ∀ {a b : List Nat}, a.length = b.length →
    xorBytes (xorBytes a b) b = a
  | [], [], _ => rfl
  | [], _ :: _, h => by simp at h
  | _ :: _, [], h => by simp at h
  | a :: as, b :: bs, h => by
    rw [show xorBytes (a :: as) (b :: bs) = (a ^^^ b) :: xorBytes as bs from rfl,
      show xorBytes ((a ^^^ b) :: xorBytes as bs) (b :: bs) =
        ((a ^^^ b) ^^^ b) :: xorBytes (xorBytes as bs) bs from rfl,
      Nat.xor_cancel_right, xorBytes_cancel (by simpa using h)]

theorem foldl_sha256_length : ∀ (blocks : List (List Nat)) (H : List Nat),
    H.length = 8 →
    (blocks.foldl (fun H blk => sha2Block 32 sha256K (7, 18, 3) (17, 19, 10)
      (2, 13, 22) (6, 11, 25) 48 H (bytesToWords 4 (blk.length + 1) blk))
      H).length = 8
  | [], _, hH => hH
  | b :: bs, H, _ => by
    rw [List.foldl_cons]
    have h8 : (sha2Block 32 sha256K (7, 18, 3) (17, 19, 10) (2, 13, 22)
        (6, 11, 25) 48 H (bytesToWords 4 (b.length + 1) b)).length = 8 := rfl
    exact foldl_sha256_length bs _ h8

theorem flatMap_beBytes4_length : ∀ (l : List Nat),
    (l.flatMap (beBytes 4)).length = 4 * l.length
  | [] => rfl
  | x :: xs => by
    rw [List.flatMap_cons, List.length_append, beBytes_length,
      flatMap_beBytes4_length xs, List.length_cons]
    ring

theorem flatMap_beBytes4_ok (l : List Nat) : okBytes (l.flatMap (beBytes 4)) := by
  intro x hx
  obtain ⟨w, _, hb⟩ := List.mem_flatMap.mp hx
  exact beBytes_ok _ _ x hb

theorem sha256_length (msg : List Nat) : (sha256 msg).length = 32 := by
  simp only [sha256]
  rw [flatMap_beBytes4_length, foldl_sha256_length _ sha256H0 rfl]

theorem sha256_ok (msg : List Nat) : okBytes (sha256 msg) := by
  simp only [sha256]
  exact flatMap_beBytes4_ok _

theorem keyOfPassword_length (p : String) : (keyOfPassword p).length = 32 := by
  simp only [keyOfPassword, dsha256]
  exact sha256_length _

theorem keyOfPassword_ok (p : String) : okBytes (keyOfPassword p) := by
  simp only [keyOfPassword, dsha256]
  exact sha256_ok _

set_option maxRecDepth 4000 in
set_option maxHeartbeats 4000000 in
theorem subByte_lt (b : Nat) : subByte b < 256 := by
  by_cases h : b < 256
  · have hball : ∀ x < 256, subByte x < 256 := by decide
    exact hball b h
  · unfold subByte
    rw [List.getD_eq_default]
    · omega
    · have hlen : sbox.length = 256 := rfl
      omega

set_option maxRecDepth 4000 in
set_option maxHeartbeats 4000000 in
theorem invSubByte_lt (b : Nat) : invSubByte b < 256 := by
  by_cases h : b < 256
  · have hball : ∀ x < 256, invSubByte x < 256 := by decide
    exact hball b h
  · unfold invSubByte
    rw [List.getD_eq_default]
    · omega
    · have hlen : invSbox.length = 256 := rfl
      omega

set_option maxRecDepth 4000 in
set_option maxHeartbeats 4000000 in
theorem invSubByte_subByte {b : Nat} (h : b < 256) : invSubByte (subByte b) = b := by
  have hball : ∀ x < 256, invSubByte (subByte x) = x := by decide
  exact hball b h

theorem subBytes_length (s : List Nat) : (subBytes s).length = s.length := by
  simp [subBytes]

theorem subBytes_ok (s : List Nat) : okBytes (subBytes s) := by
  intro x hx
  obtain ⟨b, _, rfl⟩ := List.mem_map.mp hx
  exact subByte_lt b

theorem invSubBytes_subBytes {s : List Nat} (h : okBytes s) :
    invSubBytes (subBytes s) = s := by
  unfold invSubBytes subBytes
  rw [List.map_map]
  have hcongr : s.map (invSubByte ∘ subByte) = s.map id :=
    List.map_congr_left (fun x hx => invSubByte_subByte (h x hx))
  rw [hcongr, List.map_id]

theorem list4 (w : List Nat) (h : w.length = 4) :
    ∃ a b c d, w = [a, b, c, d] := by
  rcases w with _ | ⟨a, w⟩
  · simp only [List.length_nil] at h
    omega
  rcases w with _ | ⟨b, w⟩
  · simp only [List.length_cons, List.length_nil] at h
    omega
  rcases w with _ | ⟨c, w⟩
  · simp only [List.length_cons, List.length_nil] at h
    omega
  rcases w with _ | ⟨d, w⟩
  · simp only [List.length_cons, List.length_nil] at h
    omega
  rcases w with _ | ⟨e, w⟩
  · exact ⟨a, b, c, d, rfl⟩
  · simp only [List.length_cons] at h
    omega

theorem list16 (s : List Nat) (h : s.length = 16) :
    ∃ b0 b1 b2 b3 b4 b5 b6 b7 b8 b9 b10 b11 b12 b13 b14 b15,
      s = [b0, b1, b2, b3, b4, b5, b6, b7, b8, b9, b10, b11, b12, b13, b14,
           b15] := by
  rcases s with _ | ⟨b0, s⟩
  · simp only [List.length_nil] at h
    omega
  rcases s with _ | ⟨b1, s⟩
  · simp only [List.length_cons, List.length_nil] at h
    omega
  rcases s with _ | ⟨b2, s⟩
  · simp only [List.length_cons, List.length_nil] at h
    omega
  rcases s with _ | ⟨b3, s⟩
  · simp only [List.length_cons, List.length_nil] at h
    omega
  rcases s with _ | ⟨b4, s⟩
  · simp only [List.length_cons, List.length_nil] at h
    omega
  rcases s with _ | ⟨b5, s⟩
  · simp only [List.length_cons, List.length_nil] at h
    omega
  rcases s with _ | ⟨b6, s⟩
  · simp only [List.length_cons, List.length_nil] at h
    omega
  rcases s with _ | ⟨b7, s⟩
  · simp only [List.length_cons, List.length_nil] at h
    omega
  rcases s with _ | ⟨b8, s⟩
  · simp only [List.length_cons, List.length_nil] at h
    omega
  rcases s with _ | ⟨b9, s⟩
  · simp only [List.length_cons, List.length_nil] at h
    omega
  rcases s with _ | ⟨b10, s⟩
  · simp only [List.length_cons, List.length_nil] at h
    omega
  rcases s with _ | ⟨b11, s⟩
  · simp only [List.length_cons, List.length_nil] at h
    omega
  rcases s with _ | ⟨b12, s⟩
  · simp only [List.length_cons, List.length_nil] at h
    omega
  rcases s with _ | ⟨b13, s⟩
  · simp only [List.length_cons, List.length_nil] at h
    omega
  rcases s with _ | ⟨b14, s⟩
  · simp only [List.length_cons, List.length_nil] at h
    omega
  rcases s with _ | ⟨b15, s⟩
  · simp only [List.length_cons, List.length_nil] at h
    omega
  rcases s with _ | ⟨b16, s⟩
  · exact ⟨b0, b1, b2, b3, b4, b5, b6, b7, b8, b9, b10, b11, b12, b13, b14,
      b15, rfl⟩
  · simp only [List.length_cons] at h
    omega

theorem shiftRows_length {s : List Nat} (h : s.length = 16) :
    (shiftRows s).length = 16 := by
  obtain ⟨b0, b1, b2, b3, b4, b5, b6, b7, b8, b9, b10, b11, b12, b13, b14,
    b15, rfl⟩ := list16 s h
  rfl

theorem shiftRows_ok {s : List Nat} (h : s.length = 16) (hok : okBytes s) :
    okBytes (shiftRows s) := by
  obtain ⟨b0, b1, b2, b3, b4, b5, b6, b7, b8, b9, b10, b11, b12, b13, b14,
    b15, rfl⟩ := list16 s h
  intro x hx
  rw [show shiftRows [b0, b1, b2, b3, b4, b5, b6, b7, b8, b9, b10, b11, b12,
    b13, b14, b15] = [b0, b5, b10, b15, b4, b9, b14, b3, b8, b13, b2, b7, b12,
      b1, b6, b11] from rfl] at hx
  simp only [List.mem_cons, List.not_mem_nil, or_false] at hx
  rcases hx with rfl | rfl | rfl | rfl | rfl | rfl | rfl | rfl | rfl | rfl |
    rfl | rfl | rfl | rfl | rfl | rfl <;> exact hok _ (by simp)

theorem invShiftRows_shiftRows {s : List Nat} (h : s.length = 16) :
    invShiftRows (shiftRows s) = s := by
  obtain ⟨b0, b1, b2, b3, b4, b5, b6, b7, b8, b9, b10, b11, b12, b13, b14,
    b15, rfl⟩ := list16 s h
  rfl

theorem xor_lt256 {x y : Nat} (hx : x < 256) (hy : y < 256) : x ^^^ y < 256 := by
  have h : (256 : Nat) = 2 ^ 8 := by norm_num
  rw [h] at hx hy ⊢
  exact Nat.xor_lt_two_pow hx hy

theorem xor_left_comm (a b c : Nat) : a ^^^ (b ^^^ c) = b ^^^ (a ^^^ c) := by
  rw [← Nat.xor_assoc, Nat.xor_comm a b, Nat.xor_assoc]

theorem xtime_lt {b : Nat} (h : b < 256) : xtime b < 256 := by
  unfold xtime
  exact xor_lt256 (by omega) (by omega)

theorem gmul2_lt {b : Nat} (h : b < 256) : gmul2 b < 256 := xtime_lt h

theorem gmul3_lt {b : Nat} (h : b < 256) : gmul3 b < 256 :=
  xor_lt256 (xtime_lt h) h

theorem mul2_xor (x y : Nat) : 2 * (x ^^^ y) = 2 * x ^^^ 2 * y := by
  have h : ∀ a : Nat, 2 * a = a <<< 1 := fun a => by
    rw [Nat.shiftLeft_eq]
    ring
  rw [h, h, h]
  apply Nat.eq_of_testBit_eq
  intro i
  simp [Nat.testBit_shiftLeft, Nat.testBit_xor, Bool.and_xor_distrib_left]

theorem mod256_xor (x y : Nat) : (x ^^^ y) % 256 = x % 256 ^^^ y % 256 := by
  have h256 : (256 : Nat) = 2 ^ 8 := by norm_num
  rw [h256]
  apply Nat.eq_of_testBit_eq
  intro i
  simp only [Nat.testBit_mod_two_pow, Nat.testBit_xor,
    Bool.and_xor_distrib_left]

theorem div256_xor (x y : Nat) : (x ^^^ y) / 256 = x / 256 ^^^ y / 256 := by
  have h : ∀ a : Nat, a / 256 = a >>> 8 := fun a => by
    rw [Nat.shiftRight_eq_div_pow]
  rw [h, h, h]
  apply Nat.eq_of_testBit_eq
  intro i
  simp [Nat.testBit_shiftRight, Nat.testBit_xor]

theorem mul27_bit_xor {h1 h2 : Nat} (a : h1 < 2) (b : h2 < 2) :
    27 * (h1 ^^^ h2) = 27 * h1 ^^^ 27 * h2 := by
  interval_cases h1 <;> interval_cases h2 <;> decide

theorem xtime_linear {x y : Nat} (hx : x < 256) (hy : y < 256) :
    xtime (x ^^^ y) = xtime x ^^^ xtime y := by
  unfold xtime
  rw [mul2_xor, mod256_xor, div256_xor, mul27_bit_xor (by omega) (by omega)]
  simp [Nat.xor_assoc, Nat.xor_comm, xor_left_comm]

theorem gmul9_linear {x y : Nat} (hx : x < 256) (hy : y < 256) :
    gmul9 (x ^^^ y) = gmul9 x ^^^ gmul9 y := by
  unfold gmul9
  rw [xtime_linear hx hy,
    xtime_linear (xtime_lt hx) (xtime_lt hy),
    xtime_linear (xtime_lt (xtime_lt hx)) (xtime_lt (xtime_lt hy))]
  simp [Nat.xor_assoc, Nat.xor_comm, xor_left_comm]

theorem gmul11_linear {x y : Nat} (hx : x < 256) (hy : y < 256) :
    gmul11 (x ^^^ y) = gmul11 x ^^^ gmul11 y := by
  unfold gmul11
  rw [xtime_linear hx hy,
    xtime_linear (xtime_lt hx) (xtime_lt hy),
    xtime_linear (xtime_lt (xtime_lt hx)) (xtime_lt (xtime_lt hy))]
  simp [Nat.xor_assoc, Nat.xor_comm, xor_left_comm]

theorem gmul13_linear {x y : Nat} (hx : x < 256) (hy : y < 256) :
    gmul13 (x ^^^ y) = gmul13 x ^^^ gmul13 y := by
  unfold gmul13
  rw [xtime_linear hx hy,
    xtime_linear (xtime_lt hx) (xtime_lt hy),
    xtime_linear (xtime_lt (xtime_lt hx)) (xtime_lt (xtime_lt hy))]
  simp [Nat.xor_assoc, Nat.xor_comm, xor_left_comm]

theorem gmul14_linear {x y : Nat} (hx : x < 256) (hy : y < 256) :
    gmul14 (x ^^^ y) = gmul14 x ^^^ gmul14 y := by
  unfold gmul14
  rw [xtime_linear hx hy,
    xtime_linear (xtime_lt hx) (xtime_lt hy),
    xtime_linear (xtime_lt (xtime_lt hx)) (xtime_lt (xtime_lt hy))]
  simp [Nat.xor_assoc, Nat.xor_comm, xor_left_comm]

theorem invMixCol_linear {x0 x1 x2 x3 y0 y1 y2 y3 : Nat}
    (hx0 : x0 < 256) (hx1 : x1 < 256) (hx2 : x2 < 256) (hx3 : x3 < 256)
    (hy0 : y0 < 256) (hy1 : y1 < 256) (hy2 : y2 < 256) (hy3 : y3 < 256) :
    invMixCol (x0 ^^^ y0) (x1 ^^^ y1) (x2 ^^^ y2) (x3 ^^^ y3) =
      xorBytes (invMixCol x0 x1 x2 x3) (invMixCol y0 y1 y2 y3) := by
  unfold invMixCol xorBytes
  simp only [List.zipWith_cons_cons, List.zipWith_nil_left,
    List.zipWith_nil_right]
  rw [gmul14_linear hx0 hy0, gmul11_linear hx1 hy1, gmul13_linear hx2 hy2,
    gmul9_linear hx3 hy3, gmul9_linear hx0 hy0, gmul14_linear hx1 hy1,
    gmul11_linear hx2 hy2, gmul13_linear hx3 hy3, gmul13_linear hx0 hy0,
    gmul9_linear hx1 hy1, gmul14_linear hx2 hy2, gmul11_linear hx3 hy3,
    gmul11_linear hx0 hy0, gmul13_linear hx1 hy1, gmul9_linear hx2 hy2,
    gmul14_linear hx3 hy3]
  simp [List.cons.injEq, Nat.xor_assoc, Nat.xor_comm, xor_left_comm]

set_option maxRecDepth 4000 in
set_option maxHeartbeats 4000000 in
theorem invMixCol_unit2 : ∀ a < 256,
    invMixCol (gmul2 a) a a (gmul3 a) = [a, 0, 0, 0] := by decide

set_option maxRecDepth 4000 in
set_option maxHeartbeats 4000000 in
theorem invMixCol_unit3 : ∀ b < 256,
    invMixCol (gmul3 b) (gmul2 b) b b = [0, b, 0, 0] := by decide

set_option maxRecDepth 4000 in
set_option maxHeartbeats 4000000 in
theorem invMixCol_unitc : ∀ c < 256,
    invMixCol c (gmul3 c) (gmul2 c) c = [0, 0, c, 0] := by decide

set_option maxRecDepth 4000 in
set_option maxHeartbeats 4000000 in
theorem invMixCol_unitd : ∀ d < 256,
    invMixCol d d (gmul3 d) (gmul2 d) = [0, 0, 0, d] := by decide

theorem invMixCol_mixCol {a b c d : Nat} (ha : a < 256) (hb : b < 256)
    (hc : c < 256) (hd : d < 256) :
    invMixCol (gmul2 a ^^^ gmul3 b ^^^ c ^^^ d)
      (a ^^^ gmul2 b ^^^ gmul3 c ^^^ d) (a ^^^ b ^^^ gmul2 c ^^^ gmul3 d)
      (gmul3 a ^^^ b ^^^ c ^^^ gmul2 d) = [a, b, c, d] := by
  rw [invMixCol_linear
    (xor_lt256 (xor_lt256 (gmul2_lt ha) (gmul3_lt hb)) hc)
    (xor_lt256 (xor_lt256 ha (gmul2_lt hb)) (gmul3_lt hc))
    (xor_lt256 (xor_lt256 ha hb) (gmul2_lt hc))
    (xor_lt256 (xor_lt256 (gmul3_lt ha) hb) hc)
    hd hd (gmul3_lt hd) (gmul2_lt hd)]
  rw [invMixCol_linear
    (xor_lt256 (gmul2_lt ha) (gmul3_lt hb))
    (xor_lt256 ha (gmul2_lt hb))
    (xor_lt256 ha hb)
    (xor_lt256 (gmul3_lt ha) hb)
    hc (gmul3_lt hc) (gmul2_lt hc) hc]
  rw [invMixCol_linear
    (gmul2_lt ha) ha ha (gmul3_lt ha)
    (gmul3_lt hb) (gmul2_lt hb) hb hb]
  rw [invMixCol_unit2 a ha, invMixCol_unit3 b hb, invMixCol_unitc c hc,
    invMixCol_unitd d hd]
  simp [xorBytes, Nat.xor_zero, Nat.zero_xor]

theorem mixCol_ok {a b c d : Nat} (ha : a < 256) (hb : b < 256) (hc : c < 256)
    (hd : d < 256) : okBytes (mixCol a b c d) := by
  intro x hx
  simp only [mixCol, List.mem_cons, List.not_mem_nil, or_false] at hx
  rcases hx with rfl | rfl | rfl | rfl
  · exact xor_lt256 (xor_lt256 (xor_lt256 (gmul2_lt ha) (gmul3_lt hb)) hc) hd
  · exact xor_lt256 (xor_lt256 (xor_lt256 ha (gmul2_lt hb)) (gmul3_lt hc)) hd
  · exact xor_lt256 (xor_lt256 (xor_lt256 ha hb) (gmul2_lt hc)) (gmul3_lt hd)
  · exact xor_lt256 (xor_lt256 (xor_lt256 (gmul3_lt ha) hb) hc) (gmul2_lt hd)

theorem mixColumns_length {s : List Nat} (h : s.length = 16) :
    (mixColumns s).length = 16 := by
  obtain ⟨b0, b1, b2, b3, b4, b5, b6, b7, b8, b9, b10, b11, b12, b13, b14,
    b15, rfl⟩ := list16 s h
  rfl

theorem mixColumns_ok {s : List Nat} (h : s.length = 16) (hok : okBytes s) :
    okBytes (mixColumns s) := by
  obtain ⟨b0, b1, b2, b3, b4, b5, b6, b7, b8, b9, b10, b11, b12, b13, b14,
    b15, rfl⟩ := list16 s h
  have h0 : b0 < 256 := hok _ (by simp)
  have h1 : b1 < 256 := hok _ (by simp)
  have h2 : b2 < 256 := hok _ (by simp)
  have h3 : b3 < 256 := hok _ (by simp)
  have h4 : b4 < 256 := hok _ (by simp)
  have h5 : b5 < 256 := hok _ (by simp)
  have h6 : b6 < 256 := hok _ (by simp)
  have h7 : b7 < 256 := hok _ (by simp)
  have h8 : b8 < 256 := hok _ (by simp)
  have h9 : b9 < 256 := hok _ (by simp)
  have h10 : b10 < 256 := hok _ (by simp)
  have h11 : b11 < 256 := hok _ (by simp)
  have h12 : b12 < 256 := hok _ (by simp)
  have h13 : b13 < 256 := hok _ (by simp)
  have h14 : b14 < 256 := hok _ (by simp)
  have h15 : b15 < 256 := hok _ (by simp)
  rw [show mixColumns [b0, b1, b2, b3, b4, b5, b6, b7, b8, b9, b10, b11, b12,
    b13, b14, b15] = mixCol b0 b1 b2 b3 ++ mixCol b4 b5 b6 b7 ++
      mixCol b8 b9 b10 b11 ++ mixCol b12 b13 b14 b15 from rfl,
    okBytes_append, okBytes_append, okBytes_append]
  exact ⟨⟨⟨mixCol_ok h0 h1 h2 h3, mixCol_ok h4 h5 h6 h7⟩,
    mixCol_ok h8 h9 h10 h11⟩, mixCol_ok h12 h13 h14 h15⟩

theorem invMixColumns_mixColumns {s : List Nat} (h : s.length = 16)
    (hok : okBytes s) : invMixColumns (mixColumns s) = s := by
  obtain ⟨b0, b1, b2, b3, b4, b5, b6, b7, b8, b9, b10, b11, b12, b13, b14,
    b15, rfl⟩ := list16 s h
  have h0 : b0 < 256 := hok _ (by simp)
  have h1 : b1 < 256 := hok _ (by simp)
  have h2 : b2 < 256 := hok _ (by simp)
  have h3 : b3 < 256 := hok _ (by simp)
  have h4 : b4 < 256 := hok _ (by simp)
  have h5 : b5 < 256 := hok _ (by simp)
  have h6 : b6 < 256 := hok _ (by simp)
  have h7 : b7 < 256 := hok _ (by simp)
  have h8 : b8 < 256 := hok _ (by simp)
  have h9 : b9 < 256 := hok _ (by simp)
  have h10 : b10 < 256 := hok _ (by simp)
  have h11 : b11 < 256 := hok _ (by simp)
  have h12 : b12 < 256 := hok _ (by simp)
  have h13 : b13 < 256 := hok _ (by simp)
  have h14 : b14 < 256 := hok _ (by simp)
  have h15 : b15 < 256 := hok _ (by simp)
  show invMixCol (gmul2 b0 ^^^ gmul3 b1 ^^^ b2 ^^^ b3)
      (b0 ^^^ gmul2 b1 ^^^ gmul3 b2 ^^^ b3)
      (b0 ^^^ b1 ^^^ gmul2 b2 ^^^ gmul3 b3)
      (gmul3 b0 ^^^ b1 ^^^ b2 ^^^ gmul2 b3) ++
    invMixCol (gmul2 b4 ^^^ gmul3 b5 ^^^ b6 ^^^ b7)
      (b4 ^^^ gmul2 b5 ^^^ gmul3 b6 ^^^ b7)
      (b4 ^^^ b5 ^^^ gmul2 b6 ^^^ gmul3 b7)
      (gmul3 b4 ^^^ b5 ^^^ b6 ^^^ gmul2 b7) ++
    invMixCol (gmul2 b8 ^^^ gmul3 b9 ^^^ b10 ^^^ b11)
      (b8 ^^^ gmul2 b9 ^^^ gmul3 b10 ^^^ b11)
      (b8 ^^^ b9 ^^^ gmul2 b10 ^^^ gmul3 b11)
      (gmul3 b8 ^^^ b9 ^^^ b10 ^^^ gmul2 b11) ++
    invMixCol (gmul2 b12 ^^^ gmul3 b13 ^^^ b14 ^^^ b15)
      (b12 ^^^ gmul2 b13 ^^^ gmul3 b14 ^^^ b15)
      (b12 ^^^ b13 ^^^ gmul2 b14 ^^^ gmul3 b15)
      (gmul3 b12 ^^^ b13 ^^^ b14 ^^^ gmul2 b15) =
    [b0, b1, b2, b3, b4, b5, b6, b7, b8, b9, b10, b11, b12, b13, b14, b15]
  rw [invMixCol_mixCol h0 h1 h2 h3, invMixCol_mixCol h4 h5 h6 h7,
    invMixCol_mixCol h8 h9 h10 h11, invMixCol_mixCol h12 h13 h14 h15]
  rfl

theorem rcon_lt (j : Nat) : rcon.getD j 0 < 256 := by
  by_cases h : j < 7
  · have hball : ∀ x < 7, rcon.getD x 0 < 256 := by decide
    exact hball j h
  · rw [List.getD_eq_default]
    · omega
    · have hlen : rcon.length = 7 := rfl
      omega

theorem subWord_length (w : List Nat) : (subWord w).length = w.length := by
  simp [subWord]

theorem subWord_ok (w : List Nat) : okBytes (subWord w) := by
  intro x hx
  obtain ⟨b, _, rfl⟩ := List.mem_map.mp hx
  exact subByte_lt b

theorem rotWord_spec {w : List Nat} (h : w.length = 4) (hok : okBytes w) :
    (rotWord w).length = 4 ∧ okBytes (rotWord w) := by
  obtain ⟨a, b, c, d, rfl⟩ := list4 w h
  refine ⟨rfl, ?_⟩
  intro x hx
  rw [show rotWord [a, b, c, d] = [b, c, d, a] from rfl] at hx
  simp only [List.mem_cons, List.not_mem_nil, or_false] at hx
  rcases hx with rfl | rfl | rfl | rfl <;> exact hok _ (by simp)

theorem nextWord_spec {prev8 : List (List Nat)} (i : Nat)
    (hlen : prev8.length = 8)
    (hall : ∀ w ∈ prev8, w.length = 4 ∧ okBytes w) :
    (nextWord prev8 i).length = 4 ∧ okBytes (nextWord prev8 i) := by
  have hw7 : prev8.getD 7 [] ∈ prev8 := by
    rw [List.getD_eq_getElem _ _ (by omega)]
    exact List.getElem_mem _
  have hw0 : prev8.getD 0 [] ∈ prev8 := by
    rw [List.getD_eq_getElem _ _ (by omega)]
    exact List.getElem_mem _
  have h7 := hall _ hw7
  have h0 := hall _ hw0
  have ht : (if i % 8 = 0 then
        xorBytes (subWord (rotWord (prev8.getD 7 [])))
          [rcon.getD (i / 8 - 1) 0, 0, 0, 0]
      else if i % 8 = 4 then subWord (prev8.getD 7 [])
      else prev8.getD 7 []).length = 4 ∧
      okBytes (if i % 8 = 0 then
        xorBytes (subWord (rotWord (prev8.getD 7 [])))
          [rcon.getD (i / 8 - 1) 0, 0, 0, 0]
      else if i % 8 = 4 then subWord (prev8.getD 7 [])
      else prev8.getD 7 []) := by
    have hr := rotWord_spec h7.1 h7.2
    have hrc : okBytes [rcon.getD (i / 8 - 1) 0, 0, 0, 0] := by
      intro x hx
      simp only [List.mem_cons, List.not_mem_nil, or_false] at hx
      rcases hx with rfl | rfl | rfl | rfl
      · exact rcon_lt _
      · omega
      · omega
      · omega
    by_cases hc0 : i % 8 = 0
    · rw [if_pos hc0]
      constructor
      · rw [xorBytes_length, subWord_length, hr.1]
        simp only [List.length_cons, List.length_nil]
        omega
      · exact xorBytes_ok (subWord_ok _) hrc
    · rw [if_neg hc0]
      by_cases hc4 : i % 8 = 4
      · rw [if_pos hc4]
        exact ⟨by rw [subWord_length]; exact h7.1, subWord_ok _⟩
      · rw [if_neg hc4]
        exact h7
  unfold nextWord
  constructor
  · rw [xorBytes_length, h0.1, ht.1]
    omega
  · exact xorBytes_ok h0.2 ht.2

theorem expandAux_spec : ∀ (count : Nat) (prev8 : List (List Nat)) (i : Nat),
    prev8.length = 8 → (∀ w ∈ prev8, w.length = 4 ∧ okBytes w) →
    (expandAux count prev8 i).length = count ∧
      ∀ w ∈ expandAux count prev8 i, w.length = 4 ∧ okBytes w
  | 0, _, _, _, _ => ⟨rfl, fun w hw => absurd hw (List.not_mem_nil w)⟩
  | count + 1, prev8, i, hlen, hall => by
    have hnw := nextWord_spec i hlen hall
    have hwin_len : (prev8.drop 1 ++ [nextWord prev8 i]).length = 8 := by
      simp [List.length_drop, hlen]
    have hwin_all : ∀ w ∈ prev8.drop 1 ++ [nextWord prev8 i],
        w.length = 4 ∧ okBytes w := by
      intro w hw
      rcases List.mem_append.mp hw with hmem | hmem
      · exact hall _ (List.mem_of_mem_drop hmem)
      · rw [List.mem_singleton] at hmem
        subst hmem
        exact hnw
    have ih := expandAux_spec count (prev8.drop 1 ++ [nextWord prev8 i])
      (i + 1) hwin_len hwin_all
    constructor
    · rw [show expandAux (count + 1) prev8 i = nextWord prev8 i ::
        expandAux count (prev8.drop 1 ++ [nextWord prev8 i]) (i + 1) from rfl,
        List.length_cons, ih.1]
    · intro w hw
      rw [show expandAux (count + 1) prev8 i = nextWord prev8 i ::
        expandAux count (prev8.drop 1 ++ [nextWord prev8 i]) (i + 1)
          from rfl] at hw
      rcases List.mem_cons.mp hw with rfl | hmem
      · exact hnw
      · exact ih.2 _ hmem

theorem chunkWords_spec : ∀ (fuel : Nat) (l : List Nat),
    l.length = 4 * fuel → okBytes l →
    (chunkWords fuel l).length = fuel ∧
      ∀ w ∈ chunkWords fuel l, w.length = 4 ∧ okBytes w
  | 0, l, _, _ => ⟨rfl, fun w hw => absurd hw (List.not_mem_nil w)⟩
  | fuel + 1, l, h, hok => by
    match l, h with
    | [], h => simp only [List.length_nil] at h; omega
    | x :: xs, h =>
      have hlen4 : ((x :: xs).take 4).length = 4 := by
        rw [List.length_take]
        simp only [List.length_cons] at h ⊢
        omega
      have hdrop : ((x :: xs).drop 4).length = 4 * fuel := by
        rw [List.length_drop]
        simp only [List.length_cons] at h ⊢
        omega
      have ih := chunkWords_spec fuel ((x :: xs).drop 4) hdrop
        (okBytes_drop 4 hok)
      constructor
      · rw [show chunkWords (fuel + 1) (x :: xs) =
          (x :: xs).take 4 :: chunkWords fuel ((x :: xs).drop 4) from rfl,
          List.length_cons, ih.1]
      · intro w hw
        rw [show chunkWords (fuel + 1) (x :: xs) =
          (x :: xs).take 4 :: chunkWords fuel ((x :: xs).drop 4)
            from rfl] at hw
        rcases List.mem_cons.mp hw with rfl | hmem
        · exact ⟨hlen4, okBytes_take 4 hok⟩
        · exact ih.2 w hmem

theorem aesWords_spec {key : List Nat} (hk : key.length = 32)
    (hok : okBytes key) :
    (aesWords key).length = 60 ∧
      ∀ w ∈ aesWords key, w.length = 4 ∧ okBytes w := by
  have hc := chunkWords_spec 8 key (by rw [hk]) hok
  have he := expandAux_spec 52 (chunkWords 8 key) 8 hc.1 hc.2
  constructor
  · rw [show aesWords key = chunkWords 8 key ++
      expandAux 52 (chunkWords 8 key) 8 from rfl, List.length_append,
      hc.1, he.1]
  · intro w hw
    rw [show aesWords key = chunkWords 8 key ++
      expandAux 52 (chunkWords 8 key) 8 from rfl] at hw
    rcases List.mem_append.mp hw with hmem | hmem
    · exact hc.2 _ hmem
    · exact he.2 _ hmem

theorem groupRK_length : ∀ (ws : List (List Nat)),
    (groupRK ws).length = ws.length / 4
  | [] => rfl
  | [w] => by
    rw [show groupRK [w] = [] from rfl]
    simp only [List.length_cons, List.length_nil]
  | [w, v] => by
    rw [show groupRK [w, v] = [] from rfl]
    simp only [List.length_cons, List.length_nil]
  | [w, v, u] => by
    rw [show groupRK [w, v, u] = [] from rfl]
    simp only [List.length_cons, List.length_nil]
  | w0 :: w1 :: w2 :: w3 :: rest => by
    rw [show groupRK (w0 :: w1 :: w2 :: w3 :: rest) =
      (w0 ++ w1 ++ w2 ++ w3) :: groupRK rest from rfl, List.length_cons,
      groupRK_length rest]
    simp only [List.length_cons]
    omega

theorem groupRK_spec : ∀ (ws : List (List Nat)),
    (∀ w ∈ ws, w.length = 4 ∧ okBytes w) →
    ∀ rk ∈ groupRK ws, rk.length = 16 ∧ okBytes rk
  | [], _, rk, hrk => absurd hrk (List.not_mem_nil rk)
  | [_], _, rk, hrk => absurd hrk (List.not_mem_nil rk)
  | [_, _], _, rk, hrk => absurd hrk (List.not_mem_nil rk)
  | [_, _, _], _, rk, hrk => absurd hrk (List.not_mem_nil rk)
  | w0 :: w1 :: w2 :: w3 :: rest, hws, rk, hrk => by
    rw [show groupRK (w0 :: w1 :: w2 :: w3 :: rest) =
      (w0 ++ w1 ++ w2 ++ w3) :: groupRK rest from rfl] at hrk
    rcases List.mem_cons.mp hrk with rfl | hmem
    · have h0 := hws w0 (by simp)
      have h1 := hws w1 (by simp)
      have h2 := hws w2 (by simp)
      have h3 := hws w3 (by simp)
      constructor
      · simp [List.length_append, h0.1, h1.1, h2.1, h3.1]
      · rw [okBytes_append, okBytes_append, okBytes_append]
        exact ⟨⟨⟨h0.2, h1.2⟩, h2.2⟩, h3.2⟩
    · exact groupRK_spec rest (fun w hw => hws w (by simp [hw])) rk hmem

theorem aesRoundKeys_spec {key : List Nat} (hk : key.length = 32)
    (hok : okBytes key) :
    (aesRoundKeys key).length = 15 ∧
      ∀ rk ∈ aesRoundKeys key, rk.length = 16 ∧ okBytes rk := by
  have hw := aesWords_spec hk hok
  constructor
  · rw [show aesRoundKeys key = groupRK (aesWords key) from rfl,
      groupRK_length, hw.1]
  · intro rk hrk
    rw [show aesRoundKeys key = groupRK (aesWords key) from rfl] at hrk
    exact groupRK_spec _ hw.2 rk hrk

theorem encRound_length {rk s : List Nat} (hs : s.length = 16)
    (hrk : rk.length = 16) : (encRound rk s).length = 16 := by
  have h1 : (subBytes s).length = 16 := by rw [subBytes_length]; exact hs
  have h3 : (mixColumns (shiftRows (subBytes s))).length = 16 :=
    mixColumns_length (shiftRows_length h1)
  unfold encRound
  rw [xorBytes_length, h3, hrk]
  omega

theorem encRound_ok {rk s : List Nat} (hs : s.length = 16) (hok : okBytes s)
    (hrkok : okBytes rk) : okBytes (encRound rk s) := by
  have h1 : (subBytes s).length = 16 := by rw [subBytes_length]; exact hs
  unfold encRound
  exact xorBytes_ok (mixColumns_ok (shiftRows_length h1)
    (shiftRows_ok h1 (subBytes_ok s))) hrkok

theorem decRound_encRound {rk s : List Nat} (hs : s.length = 16)
    (hok : okBytes s) (hrklen : rk.length = 16) (hrkok : okBytes rk) :
    decRound rk (encRound rk s) = s := by
  have h1 : (subBytes s).length = 16 := by rw [subBytes_length]; exact hs
  have h2 : (shiftRows (subBytes s)).length = 16 := shiftRows_length h1
  have h2ok : okBytes (shiftRows (subBytes s)) :=
    shiftRows_ok h1 (subBytes_ok s)
  have h3 : (mixColumns (shiftRows (subBytes s))).length = 16 :=
    mixColumns_length h2
  unfold decRound encRound
  rw [xorBytes_cancel (by rw [h3, hrklen])]
  rw [invMixColumns_mixColumns h2 h2ok]
  rw [invShiftRows_shiftRows h1]
  exact invSubBytes_subBytes hok

theorem decRounds_append : ∀ (xs ys : List (List Nat)) (s : List Nat),
    decRounds (xs ++ ys) s = decRounds ys (decRounds xs s)
  | [], _, _ => rfl
  | x :: xs, ys, s => by
    rw [List.cons_append]
    show decRounds (xs ++ ys) (decRound x s) = _
    rw [decRounds_append xs ys (decRound x s)]
    rfl

theorem encRounds_spec : ∀ (ks : List (List Nat)) (s : List Nat),
    s.length = 16 → okBytes s →
    (∀ rk ∈ ks, rk.length = 16 ∧ okBytes rk) →
    (encRounds ks s).length = 16 ∧ okBytes (encRounds ks s) ∧
      decRounds ks.reverse (encRounds ks s) = s
  | [], s, hs, hok, _ => ⟨hs, hok, rfl⟩
  | rk :: rest, s, hs, hok, hks => by
    have hrk := hks rk (by simp)
    have hlen1 : (encRound rk s).length = 16 := encRound_length hs hrk.1
    have hok1 : okBytes (encRound rk s) := encRound_ok hs hok hrk.2
    have ih := encRounds_spec rest (encRound rk s) hlen1 hok1
      (fun k hk => hks k (by simp [hk]))
    refine ⟨ih.1, ih.2.1, ?_⟩
    rw [show encRounds (rk :: rest) s = encRounds rest (encRound rk s)
      from rfl, List.reverse_cons, decRounds_append, ih.2.2]
    show decRound rk (encRound rk s) = s
    exact decRound_encRound hs hok hrk.1 hrk.2

theorem encBlock_spec {key b : List Nat} (hk : key.length = 32)
    (hkok : okBytes key) (hb : b.length = 16) (hbok : okBytes b) :
    (encBlock key b).length = 16 ∧ okBytes (encBlock key b) := by
  have hks := aesRoundKeys_spec hk hkok
  have hne : aesRoundKeys key ≠ [] := by
    intro hnil
    rw [hnil] at hks
    simp at hks
  have hhead : (aesRoundKeys key).headD [] ∈ aesRoundKeys key := by
    cases hcase : aesRoundKeys key with
    | nil => exact absurd hcase hne
    | cons a t => simp
  have hlast : (aesRoundKeys key).getD 14 [] ∈ aesRoundKeys key := by
    rw [List.getD_eq_getElem _ _ (by rw [hks.1]; omega)]
    exact List.getElem_mem _
  have hmid : ∀ rk ∈ ((aesRoundKeys key).drop 1).take 13,
      rk.length = 16 ∧ okBytes rk :=
    fun rk hmem => hks.2 rk (List.mem_of_mem_drop (List.mem_of_mem_take hmem))
  have hheadspec := hks.2 _ hhead
  have hlastspec := hks.2 _ hlast
  have hE0len : (xorBytes b ((aesRoundKeys key).headD [])).length = 16 := by
    rw [xorBytes_length, hb, hheadspec.1]
    omega
  have hE0ok : okBytes (xorBytes b ((aesRoundKeys key).headD [])) :=
    xorBytes_ok hbok hheadspec.2
  have hR := encRounds_spec (((aesRoundKeys key).drop 1).take 13)
    (xorBytes b ((aesRoundKeys key).headD [])) hE0len hE0ok hmid
  have hSB : (subBytes (encRounds (((aesRoundKeys key).drop 1).take 13)
      (xorBytes b ((aesRoundKeys key).headD [])))).length = 16 := by
    rw [subBytes_length]
    exact hR.1
  simp only [encBlock]
  constructor
  · rw [xorBytes_length, shiftRows_length hSB, hlastspec.1]
    omega
  · exact xorBytes_ok (shiftRows_ok hSB (subBytes_ok _)) hlastspec.2

theorem decBlock_encBlock {key b : List Nat} (hk : key.length = 32)
    (hkok : okBytes key) (hlen : b.length = 16) (hok : okBytes b) :
    decBlock key (encBlock key b) = b := by
  have hks := aesRoundKeys_spec hk hkok
  have hne : aesRoundKeys key ≠ [] := by
    intro hnil
    rw [hnil] at hks
    simp at hks
  have hhead : (aesRoundKeys key).headD [] ∈ aesRoundKeys key := by
    cases hcase : aesRoundKeys key with
    | nil => exact absurd hcase hne
    | cons a t => simp
  have hlast : (aesRoundKeys key).getD 14 [] ∈ aesRoundKeys key := by
    rw [List.getD_eq_getElem _ _ (by rw [hks.1]; omega)]
    exact List.getElem_mem _
  have hmid : ∀ rk ∈ ((aesRoundKeys key).drop 1).take 13,
      rk.length = 16 ∧ okBytes rk :=
    fun rk hmem => hks.2 rk (List.mem_of_mem_drop (List.mem_of_mem_take hmem))
  have hheadspec := hks.2 _ hhead
  have hlastspec := hks.2 _ hlast
  have hE0len : (xorBytes b ((aesRoundKeys key).headD [])).length = 16 := by
    rw [xorBytes_length, hlen, hheadspec.1]
    omega
  have hE0ok : okBytes (xorBytes b ((aesRoundKeys key).headD [])) :=
    xorBytes_ok hok hheadspec.2
  have hR := encRounds_spec (((aesRoundKeys key).drop 1).take 13)
    (xorBytes b ((aesRoundKeys key).headD [])) hE0len hE0ok hmid
  have hSB : (subBytes (encRounds (((aesRoundKeys key).drop 1).take 13)
      (xorBytes b ((aesRoundKeys key).headD [])))).length = 16 := by
    rw [subBytes_length]
    exact hR.1
  simp only [encBlock, decBlock]
  rw [xorBytes_cancel (by rw [shiftRows_length hSB, hlastspec.1])]
  rw [invShiftRows_shiftRows hSB]
  rw [invSubBytes_subBytes hR.2.1]
  rw [hR.2.2]
  exact xorBytes_cancel (by rw [hlen, hheadspec.1])

theorem cbcEnc_spec : ∀ (f : Nat) (key prev l : List Nat),
    key.length = 32 → okBytes key → prev.length = 16 → okBytes prev →
    l.length % 16 = 0 → okBytes l →
    okBytes (cbcEnc key f prev l) ∧
      (l.length ≤ 16 * f → (cbcEnc key f prev l).length = l.length)
  | 0, key, prev, l, _, _, _, _, _, _ => by
    constructor
    · intro x hx
      simp [cbcEnc] at hx
    · intro hf
      have hl : l.length = 0 := by omega
      simp [cbcEnc, hl]
  | f + 1, key, prev, l, hk, hkok, hplen, hpok, hm, hlok => by
    match l with
    | [] => exact ⟨by intro x hx; simp [cbcEnc] at hx, fun _ => rfl⟩
    | x :: xs =>
      have h16 : 16 ≤ (x :: xs).length := by
        have hne : (x :: xs).length ≠ 0 := by simp
        omega
      have htakelen : ((x :: xs).take 16).length = 16 := by
        rw [List.length_take]
        omega
      have htakeok := okBytes_take 16 hlok
      have hxorlen : (xorBytes ((x :: xs).take 16) prev).length = 16 := by
        rw [xorBytes_length, htakelen, hplen]
        omega
      have hxorok := xorBytes_ok htakeok hpok
      have hblk := encBlock_spec hk hkok hxorlen hxorok
      have hih := cbcEnc_spec f key
        (encBlock key (xorBytes ((x :: xs).take 16) prev))
        ((x :: xs).drop 16) hk hkok hblk.1 hblk.2
        (by rw [List.length_drop]; omega) (okBytes_drop 16 hlok)
      constructor
      · rw [show cbcEnc key (f + 1) prev (x :: xs) =
          encBlock key (xorBytes ((x :: xs).take 16) prev) ++
            cbcEnc key f (encBlock key (xorBytes ((x :: xs).take 16) prev))
              ((x :: xs).drop 16) from rfl, okBytes_append]
        exact ⟨hblk.2, hih.1⟩
      · intro hf
        rw [show cbcEnc key (f + 1) prev (x :: xs) =
          encBlock key (xorBytes ((x :: xs).take 16) prev) ++
            cbcEnc key f (encBlock key (xorBytes ((x :: xs).take 16) prev))
              ((x :: xs).drop 16) from rfl, List.length_append, hblk.1,
          hih.2 (by rw [List.length_drop]; omega), List.length_drop]
        omega

theorem cbcDec_chunk (key prev B R : List Nat) (fD : Nat)
    (hB : B.length = 16) :
    cbcDec key (fD + 1) prev (B ++ R) =
      xorBytes (decBlock key B) prev ++ cbcDec key fD B R := by
  have hne : B ≠ [] := by
    intro hnil
    rw [hnil] at hB
    simp at hB
  obtain ⟨y, ytail, hy⟩ := List.exists_cons_of_ne_nil hne
  rw [hy, List.cons_append]
  rw [show cbcDec key (fD + 1) prev (y :: (ytail ++ R)) =
    xorBytes (decBlock key ((y :: (ytail ++ R)).take 16)) prev ++
      cbcDec key fD ((y :: (ytail ++ R)).take 16)
        ((y :: (ytail ++ R)).drop 16) from rfl]
  rw [← List.cons_append, ← hy, List.take_left' hB, List.drop_left' hB]

theorem cbcDec_cbcEnc : ∀ (fE fD : Nat) (key prev l : List Nat),
    key.length = 32 → okBytes key →
    l.length ≤ fE → l.length ≤ fD → l.length % 16 = 0 → okBytes l →
    okBytes prev → prev.length = 16 →
    cbcDec key fD prev (cbcEnc key fE prev l) = l
  | 0, fD, key, prev, l, _, _, hfE, _, _, _, _, _ => by
    have hl : l = [] := List.eq_nil_of_length_eq_zero (by omega)
    subst hl
    cases fD <;> rfl
  | fE + 1, fD, key, prev, l, hk, hkok, hfE, hfD, hm, hok, hpok, hprev => by
    match l, fD, hfD with
    | [], fD, hfD => cases fD <;> rfl
    | x :: xs, 0, hfD => exact absurd hfD (by simp)
    | x :: xs, fD + 1, hfD =>
      have h16 : 16 ≤ (x :: xs).length := by
        have hne : (x :: xs).length ≠ 0 := by simp
        omega
      have htakelen : ((x :: xs).take 16).length = 16 := by
        rw [List.length_take]
        omega
      have htakeok := okBytes_take 16 hok
      have hxorok := xorBytes_ok htakeok hpok
      have hxorlen : (xorBytes ((x :: xs).take 16) prev).length = 16 := by
        rw [xorBytes_length, htakelen, hprev]
        omega
      have hblk := encBlock_spec hk hkok hxorlen hxorok
      rw [show cbcEnc key (fE + 1) prev (x :: xs) =
        encBlock key (xorBytes ((x :: xs).take 16) prev) ++
          cbcEnc key fE (encBlock key (xorBytes ((x :: xs).take 16) prev))
            ((x :: xs).drop 16) from rfl]
      rw [cbcDec_chunk _ _ _ _ _ hblk.1]
      rw [decBlock_encBlock hk hkok hxorlen hxorok]
      rw [xorBytes_cancel (by rw [htakelen, hprev])]
      rw [cbcDec_cbcEnc fE fD key
        (encBlock key (xorBytes ((x :: xs).take 16) prev)) ((x :: xs).drop 16)
        hk hkok (by rw [List.length_drop]; omega)
        (by rw [List.length_drop]; omega) (by rw [List.length_drop]; omega)
        (okBytes_drop 16 hok) hblk.2 hblk.1]
      exact List.take_append_drop 16 (x :: xs)

theorem replicate_getD : ∀ (k i x d : Nat), i < k →
    (List.replicate k x).getD i d = x
  | 0, i, x, d, h => absurd h (by omega)
  | k + 1, 0, x, d, _ => rfl
  | k + 1, i + 1, x, d, h => by
    rw [List.replicate_succ]
    exact replicate_getD k i x d (by omega)

theorem pkcs7Pad_mod (b : List Nat) : (pkcs7Pad b).length % 16 = 0 := by
  unfold pkcs7Pad
  rw [List.length_append, List.length_replicate]
  omega

theorem pkcs7Pad_pos (b : List Nat) : 1 ≤ (pkcs7Pad b).length := by
  unfold pkcs7Pad
  rw [List.length_append, List.length_replicate]
  omega

theorem pkcs7Pad_ok {b : List Nat} (h : okBytes b) : okBytes (pkcs7Pad b) := by
  unfold pkcs7Pad
  rw [okBytes_append]
  refine ⟨h, fun x hx => ?_⟩
  have := List.eq_of_mem_replicate hx
  omega

theorem pkcs7Strip_pad (b : List Nat) : pkcs7Strip (pkcs7Pad b) = some b := by
  have hk1 : 1 ≤ 16 - b.length % 16 := by omega
  have hk16 : 16 - b.length % 16 ≤ 16 := by omega
  unfold pkcs7Pad pkcs7Strip
  have hlen : (b ++ List.replicate (16 - b.length % 16) (16 - b.length % 16)).length
      = b.length + (16 - b.length % 16) := by
    rw [List.length_append, List.length_replicate]
  rw [hlen]
  rw [if_neg (by omega)]
  have hget : (b ++ List.replicate (16 - b.length % 16) (16 - b.length % 16)).getD
      (b.length + (16 - b.length % 16) - 1) 0 = 16 - b.length % 16 := by
    rw [List.getD_append_right _ _ _ _ (by omega)]
    rw [show b.length + (16 - b.length % 16) - 1 - b.length =
      (16 - b.length % 16) - 1 from by omega]
    exact replicate_getD _ _ _ _ (by omega)
  rw [hget]
  rw [if_neg (by omega)]
  have hsub : b.length + (16 - b.length % 16) - (16 - b.length % 16) =
      b.length := by omega
  rw [hsub, List.drop_left, List.take_left]
  rw [if_pos rfl]

theorem utf8Encode_ok (s : String) : okBytes (utf8Encode s) := by
  intro x hx
  unfold utf8Encode at hx
  obtain ⟨ch, _, hb⟩ := List.mem_flatMap.mp hx
  exact utf8EncodeChar_ok (char_toNat_lt ch) x hb

theorem pw_roundtrip (x p : String) (iv : List Nat) (hp : p ≠ "")
    (hiv : okBytes iv) (hivlen : iv.length = 16) :
    pw_decode (pw_encode x (some p) iv) (some p) = .ok x := by
  simp only [pw_encode, pw_decode, EncodeAES]
  rw [if_neg hp, if_neg hp]
  have hklen := keyOfPassword_length p
  have hkok := keyOfPassword_ok p
  have hpadok : okBytes (pkcs7Pad (utf8Encode x)) :=
    pkcs7Pad_ok (utf8Encode_ok x)
  have hcbc := cbcEnc_spec (pkcs7Pad (utf8Encode x)).length (keyOfPassword p)
    iv (pkcs7Pad (utf8Encode x)) hklen hkok hivlen hiv (pkcs7Pad_mod _)
    hpadok
  have hctlen : (cbcEnc (keyOfPassword p) (pkcs7Pad (utf8Encode x)).length iv
      (pkcs7Pad (utf8Encode x))).length = (pkcs7Pad (utf8Encode x)).length :=
    hcbc.2 (by have := pkcs7Pad_pos (utf8Encode x); omega)
  have hctok : okBytes (cbcEnc (keyOfPassword p)
      (pkcs7Pad (utf8Encode x)).length iv (pkcs7Pad (utf8Encode x))) :=
    hcbc.1
  have hdataok : okBytes (iv ++ cbcEnc (keyOfPassword p)
      (pkcs7Pad (utf8Encode x)).length iv (pkcs7Pad (utf8Encode x))) :=
    okBytes_append.mpr ⟨hiv, hctok⟩
  rw [show (String.mk (base64Encode (iv ++ cbcEnc (keyOfPassword p)
      (pkcs7Pad (utf8Encode x)).length iv (pkcs7Pad (utf8Encode x))))).data =
    base64Encode (iv ++ cbcEnc (keyOfPassword p)
      (pkcs7Pad (utf8Encode x)).length iv (pkcs7Pad (utf8Encode x))) from rfl]
  rw [base64_roundtrip _ hdataok]
  dsimp only
  have hdlen : (iv ++ cbcEnc (keyOfPassword p)
      (pkcs7Pad (utf8Encode x)).length iv
      (pkcs7Pad (utf8Encode x))).length = 16 + (pkcs7Pad (utf8Encode x)).length := by
    rw [List.length_append, hivlen, hctlen]
  rw [if_neg (by
    rw [hdlen]
    have hm := pkcs7Pad_mod (utf8Encode x)
    push_neg
    constructor
    · omega
    · omega)]
  rw [List.take_left' hivlen, List.drop_left' hivlen]
  rw [hctlen]
  rw [cbcDec_cbcEnc _ _ _ _ _ hklen hkok (le_refl _) (le_refl _)
    (pkcs7Pad_mod _) hpadok hiv hivlen]
  rw [pkcs7Strip_pad]
  dsimp only
  rw [utf8_roundtrip]

set_option maxRecDepth 100000 in
set_option maxHeartbeats 8000000 in
/-- C7 counterexample: with plaintext attack-at-dawn, password secret and a
zero IV, decoding under the wrong password pw63667 succeeds and silently
returns garbage — the block that genuine AES-256-CBC decryption produces
under the wrong key happens to carry valid padding and valid UTF-8, which
are the only wrong-password signals the scheme has. -/
theorem c7_pw_decode_counterexample :
    pw_decode (pw_encode c7Plain (some "secret") zeroIV) (some c7WrongPw) =
      .ok c7Garbage ∧ c7Garbage ≠ c7Plain := ⟨by decide, by decide⟩

/-- C7 amended: without a password (None) both pw_encode and pw_decode are
explicit no-op passthroughs; with a password, decoding an encoding under the
same password returns the plaintext exactly; and with any password a
successful decode is always the fully validated decryption — base64, padding
and UTF-8 checks all passed — never the raw input, so a wrong password fails
with the decryption error unless the bytes it produces happen to satisfy
every validation (in which case that garbage is returned, as the
counterexample shows). -/
theorem c7_pw_encode_amended :
    (∀ (x : String) (iv : List Nat),
      pw_encode x none iv = x ∧ pw_decode x none = .ok x) ∧
    (∀ (x p : String) (iv : List Nat), p ≠ "" → okBytes iv → iv.length = 16 →
      pw_decode (pw_encode x (some p) iv) (some p) = .ok x) ∧
    (∀ (s p y : String), p ≠ "" → pw_decode s (some p) = .ok y →
      ∃ data body, base64Decode s.data = some data ∧
        pkcs7Strip (cbcDec (keyOfPassword p) (data.drop 16).length
          (data.take 16) (data.drop 16)) = some body ∧
        utf8Decode body = some y) := by
  refine ⟨fun x iv => ⟨rfl, rfl⟩, fun x p iv hp hiv hlen =>
    pw_roundtrip x p iv hp hiv hlen, ?_⟩
  intro s p y hp h
  simp only [pw_decode] at h
  rw [if_neg hp] at h
  cases hb : base64Decode s.data with
  | none => rw [hb] at h; exact absurd h (by simp)
  | some data =>
    rw [hb] at h
    dsimp only at h
    split at h
    · exact absurd h (by simp)
    · cases hstrip : pkcs7Strip (cbcDec (keyOfPassword p)
        (data.drop 16).length (data.take 16) (data.drop 16)) with
      | none => rw [hstrip] at h; exact absurd h (by simp)
      | some body =>
        rw [hstrip] at h
        dsimp only at h
        cases hutf : utf8Decode body with
        | none => rw [hutf] at h; exact absurd h (by simp)
        | some str =>
          rw [hutf] at h
          have hy : str = y := by
            have := Except.ok.inj h
            exact this
          exact ⟨data, body, rfl, hstrip, hy ▸ hutf⟩

set_option maxRecDepth 100000 in
set_option maxHeartbeats 8000000 in
/-- Witness for C7: the passthrough at a concrete string and the round trip
at a concrete plaintext, password and IV. -/
theorem c7_pw_encode_amended_witness :
    (pw_encode "blah" none [] = "blah" ∧ pw_decode "blah" none = .ok "blah") ∧
    pw_decode (pw_encode "blah" (some "uber secret") zeroIV)
      (some "uber secret") = .ok "blah" :=
  ⟨c7_pw_encode_amended.1 "blah" [],
   c7_pw_encode_amended.2.1 "blah" "uber secret" zeroIV (by decide)
     (by decide) (by decide)⟩
